import Mathlib

/-!
Verification development for the CSI_Hackathon PDF/audio/LLM processing
pipeline.  Each Python function relevant to the checked claims is shallowly
embedded as an executable Lean definition operating on `String`/`List Char`,
`Nat`/`Int`/`ℚ`, and algebraic data types; external services (Gemini, Google
Vision OCR, Google Speech-to-Text, `json.loads`) enter the model as explicit
oracle parameters, and the code that consumes their answers is translated
faithfully from the source.
-/

set_option maxRecDepth 10000

/-! ## Python string primitives

Character-level models of the Python `str` operations used by the pipeline.
Python's `\s` (with the default Unicode semantics, restricted to the ASCII
range actually produced by the pipeline) covers space, tab, newline, carriage
return, vertical tab and form feed.
-/

/-- Characters matched by Python's `\s` / `str.strip()` (ASCII fragment). -/
def isPyWs (c : Char) : Bool :=
  c = ' ' || c = '\t' || c = '\n' || c = '\x0d' || c = '\x0b' || c = '\x0c'

/-- Line-break characters recognised by Python `str.splitlines`
(ASCII fragment: `\n`, `\r`, `\v`, `\f`). -/
def isLineBreak (c : Char) : Bool :=
  c = '\n' || c = '\x0d' || c = '\x0b' || c = '\x0c'

/-- `str.strip()` on a character list: drop leading and trailing whitespace. -/
def pyStripL (l : List Char) : List Char :=
  ((l.dropWhile isPyWs).reverse.dropWhile isPyWs).reverse

/-- `str.strip()`. -/
def pyStrip (s : String) : String :=
  ⟨pyStripL s.data⟩

/-- `str.rstrip()`: drop trailing whitespace. -/
def pyRstrip (s : String) : String :=
  ⟨(s.data.reverse.dropWhile isPyWs).reverse⟩

/-- `str.splitlines()` on a character list: split at line breaks, treating
`\r\n` as a single break, and producing no trailing empty line. -/
def splitlinesL : List Char → List Char → List (List Char)
  | [], acc => if acc.isEmpty then [] else [acc.reverse]
  | '\x0d' :: '\n' :: rest, acc => acc.reverse :: splitlinesL rest []
  | c :: rest, acc =>
      if isLineBreak c then acc.reverse :: splitlinesL rest []
      else splitlinesL rest (c :: acc)

/-- `str.splitlines()`. -/
def pySplitlines (s : String) : List String :=
  (splitlinesL s.data []).map fun l => ⟨l⟩

/-- Scanner for `re.sub(r'\s+', ' ', ·)`: `inRun` records whether the scan
is inside a whitespace run whose single replacement space was already
emitted. -/
def collapseWsAux (inRun : Bool) : List Char → List Char
  | [] => []
  | c :: rest =>
      if isPyWs c then
        if inRun then collapseWsAux true rest
        else ' ' :: collapseWsAux true rest
      else c :: collapseWsAux false rest

/-- `re.sub(r'\s+', ' ', ·)`: replace every maximal whitespace run by a
single space. -/
def collapseWs (l : List Char) : List Char :=
  collapseWsAux false l

/-! ## Page-range resolvers

`EnhancedPDFTextDetector._parse_page_range` (src/pdf_to_txt_multilingual.py,
lines 340-359) and `PDFTextDetector._parse_page_range`
(src/pdf_text_detector.py, lines 213-235).

A syntactically valid page-range expression is a comma-separated list of
tokens, each either a single integer literal or a `start-end` pair; after
Python's `split(',')` / `split('-')` / `int(...)` parsing, such an expression
is exactly a list of `PageToken`s, which is the representation used here.
`none` models the falsy argument (`page_range` being `None` or `""`). -/

/-- One comma-separated token of a page-range expression. -/
inductive PageToken
  | single (n : Int)
  | span (s e : Int)
  deriving DecidableEq, Repr

/-- `range(a, b)` over integers `a ≥ 0`, as a list of naturals. -/
def intRange (a b : Int) : List Nat :=
  (List.range (b - a).toNat).map fun i => a.toNat + i

/-- Insert a value into a strictly increasing list, keeping it strictly
increasing (duplicates collapse). -/
def insertSortedDedup (x : Nat) : List Nat → List Nat
  | [] => [x]
  | y :: ys =>
      if x < y then x :: y :: ys
      else if x = y then y :: ys
      else y :: insertSortedDedup x ys

/-- Python `sorted(list(set(pages)))`: the strictly increasing enumeration of
the distinct elements of `pages`. -/
def sortedDedup (pages : List Nat) : List Nat :=
  pages.foldr insertSortedDedup []

/-- Pages contributed by one token in
`EnhancedPDFTextDetector._parse_page_range`: a single page is appended only
when its zero-based index is in range; a `start-end` token contributes
`range(max(0, start-1), min(total_pages, end))`. -/
def tokenPagesML (totalPages : Nat) : PageToken → List Nat
  | .single n =>
      if 0 ≤ n - 1 ∧ n - 1 < (totalPages : Int) then [(n - 1).toNat] else []
  | .span s e => intRange (max 0 (s - 1)) (min (totalPages : Int) e)

/-- `EnhancedPDFTextDetector._parse_page_range`. -/
def parsePageRangeML (pageRange : Option (List PageToken)) (totalPages : Nat) :
    List Nat :=
  match pageRange with
  | none => List.range totalPages
  | some toks => sortedDedup (toks.flatMap (tokenPagesML totalPages))

/-- Pages contributed by one token in `PDFTextDetector._parse_page_range`:
a single page is clamped with `max(0, min(total_pages - 1, page - 1))`;
a `start-end` token contributes
`range(max(0, start-1), min(total_pages - 1, end - 1) + 1)`. -/
def tokenPagesDet (totalPages : Nat) : PageToken → List Nat
  | .single n => [(max 0 (min ((totalPages : Int) - 1) (n - 1))).toNat]
  | .span s e =>
      intRange (max 0 (s - 1)) (min ((totalPages : Int) - 1) (e - 1) + 1)

/-- `PDFTextDetector._parse_page_range`. -/
def parsePageRangeDet (pageRange : Option (List PageToken)) (totalPages : Nat) :
    List Nat :=
  match pageRange with
  | none => List.range totalPages
  | some toks => sortedDedup (toks.flatMap (tokenPagesDet totalPages))

theorem mem_insertSortedDedup {x a : Nat} :
    ∀ {l : List Nat}, a ∈ insertSortedDedup x l ↔ a = x ∨ a ∈ l := by
  intro l
  induction l with
  | nil => simp [insertSortedDedup]
  | cons y ys ih =>
      simp only [insertSortedDedup]
      split
      · simp [List.mem_cons]
      · split
        · rename_i h1 h2
          subst h2
          simp only [List.mem_cons]
          tauto
        · simp only [List.mem_cons, ih]
          tauto

theorem insertSortedDedup_sorted {x : Nat} {l : List Nat}
    (hl : l.Sorted (· < ·)) : (insertSortedDedup x l).Sorted (· < ·) := by
  induction l with
  | nil => simp [insertSortedDedup]
  | cons y ys ih =>
      rw [List.sorted_cons] at hl
      obtain ⟨hy, hys⟩ := hl
      simp only [insertSortedDedup]
      split
      · rename_i h1
        rw [List.sorted_cons]
        refine ⟨?_, by rw [List.sorted_cons]; exact ⟨hy, hys⟩⟩
        intro b hb
        rcases List.mem_cons.mp hb with rfl | hb
        · exact h1
        · exact h1.trans (hy b hb)
      · split
        · rw [List.sorted_cons]; exact ⟨hy, hys⟩
        · rename_i h1 h2
          rw [List.sorted_cons]
          refine ⟨?_, ih hys⟩
          intro b hb
          rcases mem_insertSortedDedup.mp hb with rfl | hb
          · omega
          · exact hy b hb

theorem sortedDedup_sorted_lt (pages : List Nat) :
    (sortedDedup pages).Sorted (· < ·) := by
  induction pages with
  | nil => simp [sortedDedup]
  | cons p ps ih => exact insertSortedDedup_sorted ih

theorem sortedDedup_sorted (pages : List Nat) :
    (sortedDedup pages).Sorted (· ≤ ·) :=
  (sortedDedup_sorted_lt pages).imp le_of_lt

theorem sortedDedup_nodup (pages : List Nat) : (sortedDedup pages).Nodup :=
  (sortedDedup_sorted_lt pages).nodup

theorem mem_sortedDedup {pages : List Nat} {x : Nat} :
    x ∈ sortedDedup pages ↔ x ∈ pages := by
  induction pages with
  | nil => simp [sortedDedup]
  | cons p ps ih =>
      simp only [sortedDedup, List.foldr_cons, List.mem_cons]
      rw [show List.foldr insertSortedDedup [] ps = sortedDedup ps from rfl] at *
      rw [mem_insertSortedDedup, ih]

theorem intRange_lt {a b : Int} {x : Nat} (hx : x ∈ intRange a b)
    (ha : 0 ≤ a) : (x : Int) < b := by
  unfold intRange at hx
  obtain ⟨i, hi, rfl⟩ := List.mem_map.mp hx
  rw [List.mem_range] at hi
  push_cast
  omega

theorem parsePageRangeML_mem_lt (pageRange : Option (List PageToken))
    (totalPages : Nat) :
    ∀ x ∈ parsePageRangeML pageRange totalPages, x < totalPages := by
  intro x hx
  match pageRange with
  | none => simpa [parsePageRangeML] using hx
  | some toks =>
      simp only [parsePageRangeML] at hx
      rw [mem_sortedDedup] at hx
      obtain ⟨t, _, hxt⟩ := List.mem_flatMap.mp hx
      cases t with
      | single n =>
          simp only [tokenPagesML] at hxt
          split at hxt
          · rw [List.mem_singleton] at hxt
            subst hxt
            omega
          · exact absurd hxt (List.not_mem_nil x)
      | span s e =>
          simp only [tokenPagesML] at hxt
          have := intRange_lt hxt (le_max_left 0 (s - 1))
          have hle : min (totalPages : Int) e ≤ (totalPages : Int) :=
            min_le_left _ _
          omega

theorem parsePageRangeDet_mem_lt (pageRange : Option (List PageToken))
    (totalPages : Nat) (htot : 1 ≤ totalPages) :
    ∀ x ∈ parsePageRangeDet pageRange totalPages, x < totalPages := by
  intro x hx
  match pageRange with
  | none => simpa [parsePageRangeDet] using hx
  | some toks =>
      simp only [parsePageRangeDet] at hx
      rw [mem_sortedDedup] at hx
      obtain ⟨t, _, hxt⟩ := List.mem_flatMap.mp hx
      cases t with
      | single n =>
          simp only [tokenPagesDet, List.mem_singleton] at hxt
          subst hxt
          have h1 : min ((totalPages : Int) - 1) (n - 1) ≤ (totalPages : Int) - 1 :=
            min_le_left _ _
          omega
      | span s e =>
          simp only [tokenPagesDet] at hxt
          have := intRange_lt hxt (le_max_left 0 (s - 1))
          have hle : min ((totalPages : Int) - 1) (e - 1) + 1 ≤ (totalPages : Int) :=
            by omega
          omega

theorem parsePageRangeML_sorted (pageRange : Option (List PageToken))
    (totalPages : Nat) :
    (parsePageRangeML pageRange totalPages).Sorted (· ≤ ·) := by
  match pageRange with
  | none => exact List.sorted_le_range totalPages
  | some toks => exact sortedDedup_sorted _

theorem parsePageRangeML_nodup (pageRange : Option (List PageToken))
    (totalPages : Nat) : (parsePageRangeML pageRange totalPages).Nodup := by
  match pageRange with
  | none => exact List.nodup_range totalPages
  | some toks => exact sortedDedup_nodup _

theorem parsePageRangeDet_sorted (pageRange : Option (List PageToken))
    (totalPages : Nat) :
    (parsePageRangeDet pageRange totalPages).Sorted (· ≤ ·) := by
  match pageRange with
  | none => exact List.sorted_le_range totalPages
  | some toks => exact sortedDedup_sorted _

theorem parsePageRangeDet_nodup (pageRange : Option (List PageToken))
    (totalPages : Nat) : (parsePageRangeDet pageRange totalPages).Nodup := by
  match pageRange with
  | none => exact List.nodup_range totalPages
  | some toks => exact sortedDedup_nodup _

/-- C1 counterexample: the claim quantifies over every total page count, but
`PDFTextDetector._parse_page_range` resolves the valid expression `"1"`
against a zero-page document to `[0]`, and the index `0` does not lie in
`[0, 0)`.  (The multilingual resolver is immune: it drops the token.) -/
theorem C1_counterexample :
    parsePageRangeDet (some [PageToken.single 1]) 0 = [0] ∧
      ¬ (∀ x ∈ parsePageRangeDet (some [PageToken.single 1]) 0, x < 0) := by
  constructor
  · decide
  · decide

/-- C1 (amended): for every valid page-range expression and every positive
total page count, both `_parse_page_range` implementations return zero-based
indices in `[0, total)`, without duplicates and sorted ascending (the
multilingual resolver needs no positivity hypothesis); in particular
`"1-3,5,2"` on a 6-page document resolves to `[0, 1, 2, 4]` under both. -/
theorem C1_page_range_resolution (pageRange : Option (List PageToken))
    (totalPages : Nat) (htot : 1 ≤ totalPages) :
    ((parsePageRangeML pageRange totalPages).Sorted (· ≤ ·) ∧
        (parsePageRangeML pageRange totalPages).Nodup ∧
        ∀ x ∈ parsePageRangeML pageRange totalPages, x < totalPages) ∧
    ((parsePageRangeDet pageRange totalPages).Sorted (· ≤ ·) ∧
        (parsePageRangeDet pageRange totalPages).Nodup ∧
        ∀ x ∈ parsePageRangeDet pageRange totalPages, x < totalPages) ∧
    parsePageRangeML
        (some [PageToken.span 1 3, PageToken.single 5, PageToken.single 2]) 6 =
      [0, 1, 2, 4] ∧
    parsePageRangeDet
        (some [PageToken.span 1 3, PageToken.single 5, PageToken.single 2]) 6 =
      [0, 1, 2, 4] := by
  refine ⟨⟨parsePageRangeML_sorted _ _, parsePageRangeML_nodup _ _,
      parsePageRangeML_mem_lt _ _⟩,
    ⟨parsePageRangeDet_sorted _ _, parsePageRangeDet_nodup _ _,
      parsePageRangeDet_mem_lt _ _ htot⟩, ?_, ?_⟩
  · decide
  · decide

/-- C1 witness: the amended theorem applied to the spec's own example. -/
theorem C1_page_range_resolution_witness :
    parsePageRangeML
        (some [PageToken.span 1 3, PageToken.single 5, PageToken.single 2]) 6 =
      [0, 1, 2, 4] :=
  (C1_page_range_resolution
    (some [PageToken.span 1 3, PageToken.single 5, PageToken.single 2]) 6
    (by decide)).2.2.1

/-- C7 counterexample: in `EnhancedPDFTextDetector._parse_page_range` the
out-of-range single-page token `"10"` against a 6-page document is dropped
outright — it contributes no index at all, so the result is empty rather
than containing a clamped page. -/
theorem C7_counterexample :
    parsePageRangeML (some [PageToken.single 10]) 6 = [] := by
  decide

/-- C7 (amended): only `PDFTextDetector._parse_page_range` clamps
out-of-range single-page tokens: for every nonempty document each
single-page token contributes its clamped index
`max(0, min(total-1, n-1))` to the detector resolver's result.
`EnhancedPDFTextDetector._parse_page_range` instead drops a single-page
token whose zero-based index falls outside `[0, total)`, contributing no
index. -/
theorem C7_clamping (totalPages : Nat) (htot : 1 ≤ totalPages) :
    (∀ (toks : List PageToken) (n : Int), PageToken.single n ∈ toks →
        (max 0 (min ((totalPages : Int) - 1) (n - 1))).toNat ∈
          parsePageRangeDet (some toks) totalPages) ∧
    (∀ n : Int, ¬ (0 ≤ n - 1 ∧ n - 1 < (totalPages : Int)) →
        parsePageRangeML (some [PageToken.single n]) totalPages = []) := by
  constructor
  · intro toks n hn
    simp only [parsePageRangeDet]
    rw [mem_sortedDedup]
    refine List.mem_flatMap.mpr ⟨PageToken.single n, hn, ?_⟩
    simp [tokenPagesDet]
  · intro n hn
    have hn1 : ¬ (1 ≤ n ∧ n - 1 < (totalPages : Int)) := by omega
    simp [parsePageRangeML, tokenPagesML, sortedDedup, hn1]

/-- C7 witness: at `total = 6`, the detector resolver clamps the single-page
token `"10"` to index 5, while the multilingual resolver drops it. -/
theorem C7_clamping_witness :
    (max 0 (min ((6 : Int) - 1) ((10 : Int) - 1))).toNat ∈
        parsePageRangeDet (some [PageToken.single 10]) 6 ∧
      parsePageRangeML (some [PageToken.single 10]) 6 = [] :=
  ⟨(C7_clamping 6 (by decide)).1 [PageToken.single 10] 10 (by decide),
    (C7_clamping 6 (by decide)).2 10 (by decide)⟩

/-! ## Translation chunker

`split_into_chunks` (src/translate_txt.py, lines 99-117). -/

/-- Python `"\n".join(l)`. -/
def joinNL : List String → String
  | [] => ""
  | [x] => x
  | x :: xs => x ++ "\n" ++ joinNL xs

/-- One processed line of `split_into_chunks`: `line = line.rstrip()`, with a
blank result replaced by `"\n"` to keep paragraph breaks. -/
def chunkLine (line : String) : String :=
  if pyRstrip line = "" then "\n" else pyRstrip line

/-- Loop state of `split_into_chunks`: emitted chunks (as line lists), the
current chunk under construction, and the running `current_len` counter. -/
structure ChunkState where
  chunks : List (List String)
  current : List String
  currentLen : Nat
  deriving Repr

/-- One iteration of the `split_into_chunks` loop body. -/
def chunkStep (maxChars : Nat) (st : ChunkState) (line : String) : ChunkState :=
  if st.currentLen + line.length + 1 > maxChars then
    { chunks := st.chunks ++ [st.current],
      current := [line], currentLen := line.length }
  else
    { chunks := st.chunks,
      current := st.current ++ [line],
      currentLen := st.currentLen + line.length + 1 }

/-- The trailing `if current: chunks.append(...)` of `split_into_chunks`. -/
def chunkFinal (st : ChunkState) : List (List String) :=
  if st.current.isEmpty then st.chunks else st.chunks ++ [st.current]

/-- The chunks of `split_into_chunks`, kept as lists of lines (each chunk is
rendered with `"\n".join` by `split_into_chunks`). -/
def chunkLinesOf (text : String) (maxChars : Nat) : List (List String) :=
  chunkFinal
    (((pySplitlines text).map chunkLine).foldl (chunkStep maxChars) ⟨[], [], 0⟩)

/-- `split_into_chunks` from src/translate_txt.py. -/
def split_into_chunks (text : String) (maxChars : Nat) : List String :=
  (chunkLinesOf text maxChars).map joinNL

theorem joinNL_cons (x : String) (xs : List String) :
    joinNL (x :: xs) = if xs.isEmpty then x else x ++ "\n" ++ joinNL xs := by
  cases xs <;> simp [joinNL]

theorem joinNL_cons_cons (x y : String) (ys : List String) :
    joinNL (x :: y :: ys) = x ++ "\n" ++ joinNL (y :: ys) := rfl

theorem joinNL_length_append_single (c : List String) (l : String) :
    (joinNL (c ++ [l])).length ≤ (joinNL c).length + 1 + l.length := by
  have hnl : ("\n" : String).length = 1 := by decide
  induction c with
  | nil => simp [joinNL]
  | cons x xs ih =>
      cases xs with
      | nil =>
          rw [show ([x] ++ [l]) = [x, l] from rfl, joinNL_cons_cons]
          simp only [String.length_append, joinNL, hnl]
          omega
      | cons y ys =>
          rw [show ((x :: y :: ys) ++ [l]) = x :: ((y :: ys) ++ [l]) from rfl]
          rw [show ((y :: ys) ++ [l]) = y :: (ys ++ [l]) from rfl]
          rw [joinNL_cons_cons, joinNL_cons_cons]
          rw [show y :: (ys ++ [l]) = (y :: ys) ++ [l] from rfl]
          simp only [String.length_append, hnl]
          omega

/-- Invariant carried through the `split_into_chunks` loop: every emitted
chunk fits the budget, and the rendered length of the current chunk is at
most the `current_len` counter, itself at most the budget. -/
def ChunkInv (maxChars : Nat) (st : ChunkState) : Prop :=
  (∀ c ∈ st.chunks, (joinNL c).length ≤ maxChars) ∧
    (joinNL st.current).length ≤ st.currentLen ∧ st.currentLen ≤ maxChars

theorem chunkStep_inv {maxChars : Nat} {st : ChunkState} {line : String}
    (hline : line.length ≤ maxChars) (hst : ChunkInv maxChars st) :
    ChunkInv maxChars (chunkStep maxChars st line) := by
  obtain ⟨hchunks, hcur, hlen⟩ := hst
  unfold chunkStep
  split
  · refine ⟨?_, by simp [joinNL], hline⟩
    intro c hc
    rcases List.mem_append.mp hc with hc | hc
    · exact hchunks c hc
    · rw [List.mem_singleton] at hc
      subst hc
      exact hcur.trans hlen
  · refine ⟨hchunks, ?_, ?_⟩
    · show (joinNL (st.current ++ [line])).length ≤
        st.currentLen + line.length + 1
      calc (joinNL (st.current ++ [line])).length
          ≤ (joinNL st.current).length + 1 + line.length :=
            joinNL_length_append_single _ _
        _ ≤ st.currentLen + line.length + 1 := by omega
    · show st.currentLen + line.length + 1 ≤ maxChars
      omega

theorem chunkFold_inv {maxChars : Nat} :
    ∀ {lines : List String} {st : ChunkState},
      (∀ l ∈ lines, l.length ≤ maxChars) → ChunkInv maxChars st →
      ChunkInv maxChars (lines.foldl (chunkStep maxChars) st) := by
  intro lines
  induction lines with
  | nil => intro st _ hst; exact hst
  | cons l ls ih =>
      intro st hl hst
      rw [List.foldl_cons]
      exact ih (fun x hx => hl x (List.mem_cons_of_mem _ hx))
        (chunkStep_inv (hl l (List.mem_cons_self _ _)) hst)

theorem chunkFold_join :
    ∀ (maxChars : Nat) (lines : List String) (st : ChunkState),
      (lines.foldl (chunkStep maxChars) st).chunks.flatten ++
          (lines.foldl (chunkStep maxChars) st).current =
        st.chunks.flatten ++ st.current ++ lines := by
  intro maxChars lines
  induction lines with
  | nil => intro st; simp
  | cons l ls ih =>
      intro st
      rw [List.foldl_cons]
      rw [ih (chunkStep maxChars st l)]
      unfold chunkStep
      split <;> simp

theorem dropWhile_head_false {p : Char → Bool} :
    ∀ {l x : List Char} {c : Char}, l.dropWhile p = c :: x → p c = false := by
  intro l
  induction l with
  | nil => intro x c h; simp [List.dropWhile] at h
  | cons a as ih =>
      intro x c h
      rw [List.dropWhile_cons] at h
      by_cases hpa : p a
      · rw [if_pos hpa] at h
        exact ih h
      · rw [if_neg hpa] at h
        injection h with h1 h2
        subst h1
        exact Bool.eq_false_iff.mpr hpa

/-- `rstrip` can never return the one-character string `"\n"`: its result
ends in a non-whitespace character. -/
theorem pyRstrip_ne_nl (s : String) : pyRstrip s ≠ "\n" := by
  intro h
  have hdata : (s.data.reverse.dropWhile isPyWs).reverse = ['\n'] := by
    have := congrArg String.data h
    simpa [pyRstrip] using this
  have hdrop : s.data.reverse.dropWhile isPyWs = ['\n'] := by
    have := congrArg List.reverse hdata
    simpa using this
  have := dropWhile_head_false hdrop
  simp [isPyWs] at this

/-- Dropping the `"\n"` paragraph markers from the processed lines leaves
exactly the rstripped non-blank input lines, in order. -/
theorem chunkLine_filter (lines : List String) :
    (lines.map chunkLine).filter (fun l => !(l == "\n")) =
      (lines.filter (fun l => !(pyRstrip l == ""))).map pyRstrip := by
  induction lines with
  | nil => simp
  | cons l ls ih =>
      simp only [List.map_cons, List.filter_cons]
      by_cases hl : pyRstrip l = ""
      · have h1 : chunkLine l = "\n" := by simp [chunkLine, hl]
        have h2 : (pyRstrip l == "") = true := beq_iff_eq.mpr hl
        rw [h1, h2]
        have h3 : (!(("\n" : String) == "\n")) = false := by decide
        rw [h3, Bool.not_true, if_neg Bool.false_ne_true,
          if_neg Bool.false_ne_true]
        exact ih
      · have hnl : pyRstrip l ≠ "\n" := pyRstrip_ne_nl l
        have h1 : chunkLine l = pyRstrip l := by simp [chunkLine, hl]
        have h2 : (pyRstrip l == "") = false := beq_eq_false_iff_ne.mpr hl
        have h3 : (pyRstrip l == "\n") = false := beq_eq_false_iff_ne.mpr hnl
        rw [h1, h2, h3, Bool.not_false, if_pos rfl, if_pos rfl,
          List.map_cons, ih]

/-- C9 counterexample: with budget 3, the single over-long line `"aaaaa"`
produces the chunk list `["", "aaaaa"]`, whose second chunk has length 5 > 3,
so not every chunk respects the character budget. -/
theorem C9_counterexample :
    split_into_chunks "aaaaa" 3 = ["", "aaaaa"] ∧
      ¬ ∀ c ∈ split_into_chunks "aaaaa" 3, c.length ≤ 3 := by
  constructor
  · decide
  · decide

/-- C9 (amended): every chunk produced by `split_into_chunks` has length at
most `max_chars` provided every processed input line (rstripped, with blank
lines replaced by the 1-character paragraph marker) fits the budget — an
over-long single line yields an over-long chunk; unconditionally, the chunks
are the rendered line-blocks of a partition of the processed line list, and
dropping the paragraph markers recovers exactly the rstripped non-blank
input lines in order. -/
theorem C9_chunking (text : String) (maxChars : Nat) :
    ((∀ l ∈ (pySplitlines text).map chunkLine, l.length ≤ maxChars) →
        ∀ c ∈ split_into_chunks text maxChars, c.length ≤ maxChars) ∧
    split_into_chunks text maxChars = (chunkLinesOf text maxChars).map joinNL ∧
    (chunkLinesOf text maxChars).flatten = (pySplitlines text).map chunkLine ∧
    ((chunkLinesOf text maxChars).flatten.filter (fun l => !(l == "\n"))) =
      ((pySplitlines text).filter (fun l => !(pyRstrip l == ""))).map
        pyRstrip := by
  have hch : ∀ st : ChunkState, (chunkFinal st).flatten =
      st.chunks.flatten ++ st.current := by
    intro st
    unfold chunkFinal
    cases hcur : st.current.isEmpty
    · simp
    · have : st.current = [] := List.isEmpty_iff.mp hcur
      simp [this]
  have hflat : (chunkLinesOf text maxChars).flatten =
      (pySplitlines text).map chunkLine := by
    unfold chunkLinesOf
    rw [hch]
    have h := chunkFold_join maxChars ((pySplitlines text).map chunkLine)
      ⟨[], [], 0⟩
    simpa using h
  refine ⟨?_, rfl, hflat, ?_⟩
  · intro hfit c hc
    unfold split_into_chunks at hc
    obtain ⟨cl, hcl, rfl⟩ := List.mem_map.mp hc
    have hinv : ChunkInv maxChars (((pySplitlines text).map chunkLine).foldl
        (chunkStep maxChars) ⟨[], [], 0⟩) := by
      refine chunkFold_inv hfit ⟨?_, ?_, ?_⟩
      · intro c hc; simp at hc
      · simp [joinNL]
      · exact Nat.zero_le _
    obtain ⟨hchunks, hcurlen, hlen⟩ := hinv
    unfold chunkLinesOf chunkFinal at hcl
    rcases hcl3 : (((pySplitlines text).map chunkLine).foldl
        (chunkStep maxChars) ⟨[], [], 0⟩).current.isEmpty with _ | _
    · rw [hcl3, if_neg Bool.false_ne_true] at hcl
      rcases List.mem_append.mp hcl with hcl | hcl
      · exact hchunks cl hcl
      · rw [List.mem_singleton] at hcl
        subst hcl
        exact hcurlen.trans hlen
    · rw [hcl3, if_pos rfl] at hcl
      exact hchunks cl hcl
  · rw [hflat]
    exact chunkLine_filter _

/-- C9 witness: the amended theorem applied to a small concrete text. -/
theorem C9_chunking_witness :
    (∀ l ∈ (pySplitlines "ab\ncd").map chunkLine, l.length ≤ 10) ∧
      ∀ c ∈ split_into_chunks "ab\ncd" 10, c.length ≤ 10 :=
  ⟨by decide, (C9_chunking "ab\ncd" 10).1 (by decide)⟩

/-! ## Audio transcription chunking

`transcribe_audio_google` (src/asr.py, lines 129-193).  The Google STT
client is the oracle `recognize : Nat → List String`, giving the transcript
parts returned by the i-th `_recognize_bytes` call (`diarize = False`, the
pipeline's default).  The WAV header supplies `rate` (`sample_rate_hertz`)
and `nframes`; `C` is `chunk_secs`.  The branch test
`duration_sec >= float(chunk_secs)` is `nframes / rate ≥ C`, i.e.
`C * rate ≤ nframes` for `rate > 0` (exact rational comparison; the float
division of ints deviates only at astronomically large rates). -/

/-- Python `" ".join(l)`. -/
def joinSpace : List String → String
  | [] => ""
  | [x] => x
  | x :: xs => x ++ " " ++ joinSpace xs

/-- The per-iteration `frames_to_read = min(chunk_frames, total - read)`
sequence of the chunking loop.  For `chunk_frames = 0` and positive total the
Python loop would not terminate; the model returns `[]` there and no theorem
uses that case. -/
def chunkSizes (chunkFrames total : Nat) : List Nat :=
  if 0 < total ∧ 0 < chunkFrames then
    min chunkFrames total :: chunkSizes chunkFrames (total - min chunkFrames total)
  else []
  termination_by total
  decreasing_by omega

/-- Frame windows `(start, length)` from a list of window sizes read
sequentially from `start`. -/
def windowsFrom (start : Nat) : List Nat → List (Nat × Nat)
  | [] => []
  | k :: ks => (start, k) :: windowsFrom (start + k) ks

/-- The frame windows submitted to recognition: the chunking loop's windows
for long audio, a single whole-file window for short audio. -/
def transcribeWindows (rate C nframes : Nat) : List (Nat × Nat) :=
  if C * rate ≤ nframes then windowsFrom 0 (chunkSizes (rate * C) nframes)
  else [(0, nframes)]

/-- `transcribe_audio_google` (transcript text, number of recognition
calls).  Chunked path: one call per window, a chunk transcript is appended
only when `parts` is nonempty, and the final text newline-joins the
stripped nonblank chunk transcripts in order.  Short path: a single call
whose parts are newline-joined after stripping. -/
def transcribe_audio_google (recognize : Nat → List String)
    (rate C nframes : Nat) : String × Nat :=
  if C * rate ≤ nframes then
    let n := (chunkSizes (rate * C) nframes).length
    let transcripts := (List.range n).filterMap fun i =>
      if (recognize i).isEmpty then none else some (joinSpace (recognize i))
    (joinNL ((transcripts.filter
        (fun t => !(pyStrip t == ""))).map pyStrip), n)
  else
    (joinNL (((recognize 0).filter
        (fun t => !(pyStrip t == ""))).map pyStrip), 1)

theorem chunkSizes_le {cf : Nat} : ∀ {total : Nat},
    ∀ k ∈ chunkSizes cf total, k ≤ cf ∧ 0 < k := by
  intro total
  induction total using Nat.strong_induction_on with
  | _ total ih =>
      intro k hk
      rw [chunkSizes] at hk
      split at hk
      · rename_i h
        rcases List.mem_cons.mp hk with rfl | hk
        · exact ⟨min_le_left _ _, by omega⟩
        · exact ih _ (by omega) k hk
      · exact absurd hk (List.not_mem_nil k)

theorem chunkSizes_sum {cf : Nat} (hcf : 0 < cf) :
    ∀ total : Nat, (chunkSizes cf total).sum = total := by
  intro total
  induction total using Nat.strong_induction_on with
  | _ total ih =>
      rw [chunkSizes]
      split
      · rename_i h
        rw [List.sum_cons, ih _ (by omega)]
        omega
      · rename_i h
        simp only [List.sum_nil]
        omega

theorem chunkSizes_length {cf : Nat} (hcf : 0 < cf) :
    ∀ total : Nat, (chunkSizes cf total).length = (total + cf - 1) / cf := by
  intro total
  induction total using Nat.strong_induction_on with
  | _ total ih =>
      rw [chunkSizes]
      split
      · rename_i h
        rw [List.length_cons, ih _ (by omega)]
        rcases le_or_lt total cf with hle | hlt
        · rw [min_eq_right hle, Nat.sub_self]
          rw [show (0 : Nat) + cf - 1 = cf - 1 from by omega]
          rw [Nat.div_eq_of_lt (by omega)]
          rw [show total + cf - 1 = (total - 1) + cf from by omega]
          rw [Nat.add_div_right _ hcf, Nat.div_eq_of_lt (by omega)]
        · rw [min_eq_left (by omega)]
          rw [show total - cf + cf - 1 = total - 1 from by omega]
          rw [show total + cf - 1 = (total - 1) + cf from by omega]
          rw [Nat.add_div_right _ hcf]
      · rename_i h
        have htot : total = 0 := by omega
        subst htot
        simp only [List.length_nil]
        rw [show (0 : Nat) + cf - 1 = cf - 1 from by omega]
        rw [Nat.div_eq_of_lt (by omega)]

theorem windowsFrom_flatten : ∀ (sizes : List Nat) (start : Nat),
    ((windowsFrom start sizes).map
        (fun w => List.range' w.1 w.2)).flatten =
      List.range' start sizes.sum := by
  intro sizes
  induction sizes with
  | nil => intro start; simp [windowsFrom]
  | cons k ks ih =>
      intro start
      simp only [windowsFrom, List.map_cons, List.flatten_cons, List.sum_cons]
      rw [ih (start + k), List.range'_append_1, Nat.add_comm ks.sum k]

theorem windowsFrom_mem_size {sizes : List Nat} {start : Nat} {w : Nat × Nat}
    (hw : w ∈ windowsFrom start sizes) : w.2 ∈ sizes := by
  induction sizes generalizing start with
  | nil => simp [windowsFrom] at hw
  | cons k ks ih =>
      rw [windowsFrom] at hw
      rcases List.mem_cons.mp hw with rfl | hw
      · exact List.mem_cons_self _ _
      · exact List.mem_cons_of_mem _ (ih hw)

theorem transcripts_strip_filter (ps : List (List String)) :
    ((ps.filterMap fun parts =>
        if parts.isEmpty then none else some (joinSpace parts)).filter
          (fun t => !(pyStrip t == ""))).map pyStrip =
      (ps.map (fun parts => pyStrip (joinSpace parts))).filter
        (fun t => !(t == "")) := by
  induction ps with
  | nil => simp
  | cons parts ps ih =>
      rw [List.map_cons]
      cases hparts : parts.isEmpty
      · rw [List.filterMap_cons_some (by rw [hparts]; rfl)]
        rw [List.filter_cons, List.filter_cons]
        cases hstrip : (pyStrip (joinSpace parts) == "")
        · simp only [Bool.not_false, if_pos rfl, if_true, List.map_cons, ih]
        · simp only [Bool.not_true, if_neg Bool.false_ne_true, if_false, ih]
      · have hnil : parts = [] := List.isEmpty_iff.mp hparts
        subst hnil
        rw [List.filterMap_cons_none rfl, ih, List.filter_cons]
        have h0 : pyStrip (joinSpace []) = "" := by decide
        rw [h0]
        rw [show (("" : String) == "") = true from rfl, Bool.not_true,
          if_neg Bool.false_ne_true]

/-- C2 counterexample: a zero-length WAV (0 frames) takes the short-audio
path and still issues one recognition call, while
`ceil(D / C) = ceil(0 / 58) = 0`. -/
theorem C2_counterexample :
    (transcribe_audio_google (fun _ => []) 16000 58 0).2 = 1 ∧
      (0 + 58 * 16000 - 1) / (58 * 16000) = 0 := by
  constructor
  · decide
  · decide

/-- C2 (amended): for audio with `nframes > 0` frames at rate `rate > 0`
and chunk ceiling `C > 0`, the transcriber issues exactly
`ceil(nframes / (C·rate)) = ceil(D / C)` recognition calls; the frame
windows are sequential, non-overlapping, in temporal order, of at most
`C × rate` frames each, and they partition `[0, nframes)` exactly; on the
chunked path the final transcript is the newline-join of the stripped
nonblank per-chunk transcripts in chunk-index order.  (A zero-frame file
still issues one call.) -/
theorem C2_transcription (recognize : Nat → List String)
    (rate C nframes : Nat) (hrate : 0 < rate) (hC : 0 < C)
    (hn : 0 < nframes) :
    (transcribe_audio_google recognize rate C nframes).2 =
        (nframes + C * rate - 1) / (C * rate) ∧
    (∀ w ∈ transcribeWindows rate C nframes, w.2 ≤ C * rate ∧ 0 < w.2) ∧
    ((transcribeWindows rate C nframes).map
        (fun w => List.range' w.1 w.2)).flatten = List.range nframes ∧
    (C * rate ≤ nframes →
      (transcribe_audio_google recognize rate C nframes).1 =
        joinNL (((List.range ((nframes + C * rate - 1) / (C * rate))).map
            (fun i => pyStrip (joinSpace (recognize i)))).filter
              (fun t => !(t == "")))) := by
  have hcf : 0 < rate * C := by positivity
  have hmul : rate * C = C * rate := Nat.mul_comm _ _
  by_cases hlong : C * rate ≤ nframes
  · have h2 : (transcribe_audio_google recognize rate C nframes).2 =
        (chunkSizes (rate * C) nframes).length := by
      unfold transcribe_audio_google
      rw [if_pos hlong]
    have hlen := chunkSizes_length hcf nframes
    refine ⟨?_, ?_, ?_, ?_⟩
    · rw [h2, hlen, hmul]
    · intro w hw
      unfold transcribeWindows at hw
      rw [if_pos hlong] at hw
      have := chunkSizes_le _ (windowsFrom_mem_size hw)
      omega
    · unfold transcribeWindows
      rw [if_pos hlong, windowsFrom_flatten, chunkSizes_sum hcf,
        List.range_eq_range']
    · intro _
      unfold transcribe_audio_google
      rw [if_pos hlong]
      dsimp only
      have hfm : (List.range ((chunkSizes (rate * C) nframes).length)).filterMap
          (fun i => if (recognize i).isEmpty then none
            else some (joinSpace (recognize i))) =
          ((List.range ((chunkSizes (rate * C) nframes).length)).map
            recognize).filterMap
              (fun parts => if parts.isEmpty then none
                else some (joinSpace parts)) := by
        rw [List.filterMap_map]
        rfl
      rw [hfm, transcripts_strip_filter, List.map_map, hlen, hmul]
      rfl
  · refine ⟨?_, ?_, ?_, fun h => absurd h hlong⟩
    · unfold transcribe_audio_google
      rw [if_neg hlong]
      rw [show nframes + C * rate - 1 = (nframes - 1) + (C * rate) from
        by omega]
      rw [Nat.add_div_right _ (by omega), Nat.div_eq_of_lt (by omega)]
    · intro w hw
      unfold transcribeWindows at hw
      rw [if_neg hlong] at hw
      rw [List.mem_singleton] at hw
      subst hw
      exact ⟨by omega, hn⟩
    · unfold transcribeWindows
      rw [if_neg hlong]
      simp [List.range_eq_range']

/-- C2 witness: the amended theorem applied at 16 kHz, 58-second ceiling,
1,000,000 frames. -/
theorem C2_transcription_witness :
    (transcribe_audio_google (fun _ => ["hello"]) 16000 58 1000000).2 =
      (1000000 + 58 * 16000 - 1) / (58 * 16000) :=
  (C2_transcription (fun _ => ["hello"]) 16000 58 1000000
    (by decide) (by decide) (by decide)).1

/-! ## OCR text normalizer

`preprocess_ocr_text` (src/ocr.py, lines 26-52): strip lines and drop blank
ones, join with single spaces, collapse whitespace runs, Unicode NFC, then
remove every character outside Devanagari / ASCII letters / digits /
whitespace.  (The `transliterate_to_latin` and `title_case` parameters are
unused by the function body.) -/

/-- Characters kept by the artifact filter `[^ऀ-ॿa-zA-Z0-9\s]`. -/
def keptOcr (c : Char) : Bool :=
  (decide ('ऀ' ≤ c) && decide (c ≤ 'ॿ')) ||
  (decide ('a' ≤ c) && decide (c ≤ 'z')) ||
  (decide ('A' ≤ c) && decide (c ≤ 'Z')) ||
  (decide ('0' ≤ c) && decide (c ≤ '9')) ||
  isPyWs c

/-- Python `" ".join(·)` on character lists. -/
def joinSpaceL : List (List Char) → List Char
  | [] => []
  | [x] => x
  | x :: xs => x ++ ' ' :: joinSpaceL xs

/-- Modelled from the spec: `unicodedata.normalize('NFC', ·)` from the
Python standard library (not part of this repository).  NFC is idempotent
and is the identity on NFC-normal strings; every string handled by the
theorems below (ASCII and precomposed text) is NFC-normal, so the map is
modelled as the identity. -/
def unicodeNFC (l : List Char) : List Char := l

/-- `preprocess_ocr_text` on a character list: strip lines and drop blank
ones, join with single spaces, collapse whitespace runs, NFC, filter. -/
def preprocessL (raw : List Char) : List Char :=
  (unicodeNFC (collapseWs (joinSpaceL
      (((splitlinesL raw []).map pyStripL).filter
        (fun l => !l.isEmpty))))).filter keptOcr

/-- `preprocess_ocr_text` from src/ocr.py. -/
def preprocess_ocr_text (raw : String) : String :=
  ⟨preprocessL raw.data⟩

/-- Adjacent characters never both whitespace. -/
def WsChain (l : List Char) : Prop :=
  l.Chain' fun a b => ¬(isPyWs a = true ∧ isPyWs b = true)

theorem isLineBreak_ws {c : Char} (h : isLineBreak c = true) :
    isPyWs c = true := by
  simp only [isLineBreak, Bool.or_eq_true, decide_eq_true_eq] at h
  simp only [isPyWs, Bool.or_eq_true, decide_eq_true_eq]
  tauto

theorem collapseWsAux_head_true :
    ∀ {l : List Char} {c : Char},
      (collapseWsAux true l).head? = some c → isPyWs c = false := by
  intro l
  induction l with
  | nil => intro c h; simp [collapseWsAux] at h
  | cons a rest ih =>
      intro c h
      rw [collapseWsAux] at h
      cases ha : isPyWs a
      · rw [ha, if_neg Bool.false_ne_true, List.head?_cons,
          Option.some_inj] at h
        subst h
        exact ha
      · rw [ha, if_pos rfl, if_pos rfl] at h
        exact ih h

theorem collapseWsAux_mem :
    ∀ {l : List Char} {b : Bool} {c : Char}, c ∈ collapseWsAux b l →
      c = ' ' ∨ (c ∈ l ∧ isPyWs c = false) := by
  intro l
  induction l with
  | nil => intro b c h; simp [collapseWsAux] at h
  | cons a rest ih =>
      intro b c h
      rw [collapseWsAux] at h
      cases ha : isPyWs a
      · rw [ha, if_neg Bool.false_ne_true, List.mem_cons] at h
        rcases h with rfl | h
        · exact Or.inr ⟨List.mem_cons_self _ _, ha⟩
        · rcases ih h with h | ⟨h1, h2⟩
          · exact Or.inl h
          · exact Or.inr ⟨List.mem_cons_of_mem _ h1, h2⟩
      · rw [ha, if_pos rfl] at h
        cases b
        · rw [if_neg Bool.false_ne_true, List.mem_cons] at h
          rcases h with rfl | h
          · exact Or.inl rfl
          · rcases ih h with h | ⟨h1, h2⟩
            · exact Or.inl h
            · exact Or.inr ⟨List.mem_cons_of_mem _ h1, h2⟩
        · rw [if_pos rfl] at h
          rcases ih h with h | ⟨h1, h2⟩
          · exact Or.inl h
          · exact Or.inr ⟨List.mem_cons_of_mem _ h1, h2⟩

theorem collapseWsAux_chain :
    ∀ (l : List Char) (b : Bool), WsChain (collapseWsAux b l) := by
  intro l
  induction l with
  | nil => intro b; rw [collapseWsAux]; exact List.chain'_nil
  | cons a rest ih =>
      intro b
      rw [collapseWsAux]
      cases ha : isPyWs a
      · rw [if_neg Bool.false_ne_true]
        rw [WsChain, List.chain'_cons']
        refine ⟨?_, ih false⟩
        intro y _
        rw [ha]
        simp
      · rw [if_pos rfl]
        cases b
        · rw [if_neg Bool.false_ne_true]
          rw [WsChain, List.chain'_cons']
          refine ⟨?_, ih true⟩
          intro y hy
          have := collapseWsAux_head_true hy
          rw [this]
          simp
        · rw [if_pos rfl]
          exact ih true

theorem collapseWsAux_true_eq {l : List Char}
    (h : ∀ c ∈ l.head?, isPyWs c = false) :
    collapseWsAux true l = collapseWsAux false l := by
  cases l with
  | nil => rfl
  | cons a rest =>
      have ha : isPyWs a = false := h a (by simp)
      rw [collapseWsAux, collapseWsAux, ha]
      rw [if_neg Bool.false_ne_true, if_neg Bool.false_ne_true]

theorem collapseWsAux_ne_nil :
    ∀ {l : List Char} {c : Char} {b : Bool}, c ∈ l → isPyWs c = false →
      collapseWsAux b l ≠ [] := by
  intro l
  induction l with
  | nil => intro c b h _; exact absurd h (List.not_mem_nil c)
  | cons a rest ih =>
      intro c b hc hws
      rw [collapseWsAux]
      cases ha : isPyWs a
      · rw [if_neg Bool.false_ne_true]
        exact List.cons_ne_nil _ _
      · rw [if_pos rfl]
        have hcr : c ∈ rest := by
          rcases List.mem_cons.mp hc with rfl | h
          · rw [ha] at hws; exact absurd hws (by simp)
          · exact h
        cases b
        · rw [if_neg Bool.false_ne_true]
          exact List.cons_ne_nil _ _
        · rw [if_pos rfl]
          exact ih hcr hws

theorem getLast?_cons_or (a : Char) (l : List Char) :
    (a :: l).getLast? = l.getLast?.or (some a) := by
  rw [show a :: l = [a] ++ l from rfl, List.getLast?_append]
  rfl

theorem collapseWsAux_getLast :
    ∀ {l : List Char} {b : Bool},
      (∀ c ∈ l.getLast?, isPyWs c = false) →
      ∀ c ∈ (collapseWsAux b l).getLast?, isPyWs c = false := by
  intro l
  induction l with
  | nil => intro b _ c h; simp [collapseWsAux] at h
  | cons a rest ih =>
      intro b hlast c hc
      cases hrest : rest with
      | nil =>
          subst hrest
          have ha : isPyWs a = false := hlast a (by simp)
          rw [collapseWsAux, ha, if_neg Bool.false_ne_true] at hc
          simp only [collapseWsAux, List.getLast?_singleton,
            Option.mem_def, Option.some_inj] at hc
          subst hc
          exact ha
      | cons r rs =>
          subst hrest
          have hlast' : ∀ d ∈ (r :: rs).getLast?, isPyWs d = false := by
            intro d hd
            exact hlast d (by rwa [List.getLast?_cons_cons])
          have hwit : ∃ d ∈ (r :: rs), isPyWs d = false := by
            have hne : (r :: rs).getLast? = some ((r :: rs).getLast
                (List.cons_ne_nil r rs)) := List.getLast?_eq_getLast _ _
            refine ⟨(r :: rs).getLast (List.cons_ne_nil r rs),
              List.getLast_mem _, ?_⟩
            exact hlast' _ (by rw [hne]; rfl)
          obtain ⟨d, hd1, hd2⟩ := hwit
          rw [collapseWsAux] at hc
          cases ha : isPyWs a
          · rw [ha, if_neg Bool.false_ne_true] at hc
            rw [getLast?_cons_or] at hc
            have hne2 : collapseWsAux false (r :: rs) ≠ [] :=
              collapseWsAux_ne_nil hd1 hd2
            cases hg : (collapseWsAux false (r :: rs)).getLast? with
            | none =>
                exact absurd (List.getLast?_eq_none_iff.mp hg) hne2
            | some g =>
                rw [hg] at hc
                simp only [Option.or_some, Option.mem_def,
                  Option.some_inj] at hc
                subst hc
                exact ih hlast' g (by rw [hg]; rfl)
          · rw [ha, if_pos rfl] at hc
            have hne2 : collapseWsAux true (r :: rs) ≠ [] :=
              collapseWsAux_ne_nil hd1 hd2
            cases b
            · rw [if_neg Bool.false_ne_true, getLast?_cons_or] at hc
              cases hg : (collapseWsAux true (r :: rs)).getLast? with
              | none =>
                  exact absurd (List.getLast?_eq_none_iff.mp hg) hne2
              | some g =>
                  rw [hg] at hc
                  simp only [Option.or_some, Option.mem_def,
                    Option.some_inj] at hc
                  subst hc
                  exact ih hlast' g (by rw [hg]; rfl)
            · rw [if_pos rfl] at hc
              exact ih hlast' c hc

theorem collapseWs_head {l : List Char}
    (h : ∀ c ∈ l.head?, isPyWs c = false) :
    ∀ c ∈ (collapseWs l).head?, isPyWs c = false := by
  intro c hc
  cases l with
  | nil => simp [collapseWs, collapseWsAux] at hc
  | cons a rest =>
      have ha : isPyWs a = false := h a (by simp)
      rw [collapseWs, collapseWsAux, ha, if_neg Bool.false_ne_true,
        List.head?_cons] at hc
      simp only [Option.mem_def, Option.some_inj] at hc
      subst hc
      exact ha

theorem collapseWs_eq_self :
    ∀ {l : List Char}, (∀ c ∈ l, isPyWs c = true → c = ' ') → WsChain l →
      collapseWs l = l := by
  intro l
  induction l with
  | nil => intro _ _; rfl
  | cons a rest ih =>
      intro hws hch
      rw [WsChain, List.chain'_cons'] at hch
      obtain ⟨hR, hch⟩ := hch
      rw [collapseWs, collapseWsAux]
      cases ha : isPyWs a
      · rw [if_neg Bool.false_ne_true]
        rw [show collapseWsAux false rest = collapseWs rest from rfl]
        rw [ih (fun c hc => hws c (List.mem_cons_of_mem _ hc)) hch]
      · rw [if_pos rfl, if_neg Bool.false_ne_true]
        have ha' : a = ' ' := hws a (List.mem_cons_self _ _) ha
        have hhead : ∀ c ∈ rest.head?, isPyWs c = false := by
          intro c hc
          have := hR c hc
          rw [ha] at this
          by_contra hcc
          exact this ⟨rfl, by revert hcc; cases isPyWs c <;> simp⟩
        rw [collapseWsAux_true_eq hhead]
        rw [show collapseWsAux false rest = collapseWs rest from rfl]
        rw [ih (fun c hc => hws c (List.mem_cons_of_mem _ hc)) hch, ha']

theorem dropWhile_eq_self_of_head {p : Char → Bool} {l : List Char}
    (h : ∀ c ∈ l.head?, p c = false) : l.dropWhile p = l := by
  cases l with
  | nil => rfl
  | cons a rest =>
      have ha : p a = false := h a (by simp)
      exact List.dropWhile_cons_of_neg (by rw [ha]; exact Bool.false_ne_true)

theorem pyStripL_eq_self {l : List Char}
    (hh : ∀ c ∈ l.head?, isPyWs c = false)
    (hl : ∀ c ∈ l.getLast?, isPyWs c = false) : pyStripL l = l := by
  unfold pyStripL
  rw [dropWhile_eq_self_of_head hh]
  rw [dropWhile_eq_self_of_head (by
    intro c hc
    rw [List.head?_reverse] at hc
    exact hl c hc)]
  exact List.reverse_reverse l

theorem pyStripL_subset {l : List Char} {c : Char} (hc : c ∈ pyStripL l) :
    c ∈ l := by
  unfold pyStripL at hc
  rw [List.mem_reverse] at hc
  have h1 := (List.dropWhile_sublist isPyWs).subset hc
  rw [List.mem_reverse] at h1
  exact (List.dropWhile_sublist isPyWs).subset h1

theorem dropWhile_head?_false {p : Char → Bool} {l : List Char} {c : Char}
    (h : (l.dropWhile p).head? = some c) : p c = false := by
  cases hD : l.dropWhile p with
  | nil => rw [hD] at h; simp at h
  | cons x xs =>
      rw [hD, List.head?_cons, Option.some_inj] at h
      subst h
      exact dropWhile_head_false hD

theorem pyStripL_getLast {l : List Char} :
    ∀ c ∈ (pyStripL l).getLast?, isPyWs c = false := by
  intro c hc
  unfold pyStripL at hc
  rw [List.getLast?_reverse] at hc
  exact dropWhile_head?_false hc

theorem pyStripL_head {l : List Char} :
    ∀ c ∈ (pyStripL l).head?, isPyWs c = false := by
  intro c hc
  unfold pyStripL at hc
  rw [List.head?_reverse] at hc
  obtain ⟨t, ht⟩ :=
    List.dropWhile_suffix (l := (l.dropWhile isPyWs).reverse) isPyWs
  have hA : ((l.dropWhile isPyWs).reverse.dropWhile isPyWs).getLast? =
      some c := hc
  have hB : ((l.dropWhile isPyWs).reverse).getLast? = some c := by
    rw [← ht, List.getLast?_append, hA]
    rfl
  rw [List.getLast?_reverse] at hB
  exact dropWhile_head?_false hB

theorem splitlinesL_subset :
    ∀ (l acc ln : List Char) (c : Char),
      ln ∈ splitlinesL l acc → c ∈ ln → c ∈ l ∨ c ∈ acc := by
  have H : ∀ (n : Nat) (l : List Char), l.length ≤ n →
      ∀ (acc ln : List Char) (c : Char),
        ln ∈ splitlinesL l acc → c ∈ ln → c ∈ l ∨ c ∈ acc := by
    intro n
    induction n with
    | zero =>
        intro l hlen acc ln c hln hc
        have : l = [] := List.length_eq_zero.mp (Nat.le_zero.mp hlen)
        subst this
        rw [splitlinesL] at hln
        split at hln
        · exact absurd hln (List.not_mem_nil ln)
        · rw [List.mem_singleton] at hln
          subst hln
          rw [List.mem_reverse] at hc
          exact Or.inr hc
    | succ n ih =>
        intro l hlen acc ln c hln hc
        rw [splitlinesL.eq_def] at hln
        split at hln
        · split at hln
          · exact absurd hln (List.not_mem_nil ln)
          · rw [List.mem_singleton] at hln
            subst hln
            rw [List.mem_reverse] at hc
            exact Or.inr hc
        · rename_i rest
          rcases List.mem_cons.mp hln with rfl | hln
          · rw [List.mem_reverse] at hc
            exact Or.inr hc
          · rcases ih rest (by simp at hlen; omega) [] ln c hln hc with
              h | h
            · exact Or.inl (by simp [List.mem_cons, h])
            · exact absurd h (List.not_mem_nil c)
        · rename_i c0 rest _
          split at hln
          · rcases List.mem_cons.mp hln with rfl | hln
            · rw [List.mem_reverse] at hc
              exact Or.inr hc
            · rcases ih rest (by simp at hlen; omega) [] ln c hln hc with
                h | h
              · exact Or.inl (List.mem_cons_of_mem _ h)
              · exact absurd h (List.not_mem_nil c)
          · rcases ih rest (by simp at hlen; omega) (c0 :: acc) ln c hln hc
              with h | h
            · exact Or.inl (List.mem_cons_of_mem _ h)
            · rcases List.mem_cons.mp h with rfl | h
              · exact Or.inl (List.mem_cons_self _ _)
              · exact Or.inr h
  intro l acc ln c hln hc
  exact H l.length l le_rfl acc ln c hln hc

theorem splitlines_no_break :
    ∀ (l acc : List Char), (∀ c ∈ l, isLineBreak c = false) →
      splitlinesL l acc =
        if acc.isEmpty && l.isEmpty then [] else [acc.reverse ++ l] := by
  intro l
  induction l with
  | nil =>
      intro acc _
      rw [splitlinesL]
      cases acc <;> simp
  | cons c0 rest ih =>
      intro acc h
      have hc0 : isLineBreak c0 = false := h c0 (List.mem_cons_self _ _)
      have hne : ∀ (rest1 : List Char), c0 = '\x0d' →
          rest = '\n' :: rest1 → False := by
        intro _ hcc _
        rw [hcc] at hc0
        exact absurd hc0 (by decide)
      rw [splitlinesL.eq_3 _ _ _ hne]
      rw [if_neg (by rw [hc0]; exact Bool.false_ne_true)]
      rw [ih (c0 :: acc) (fun c hc => h c (List.mem_cons_of_mem _ hc))]
      have h1 : ((c0 :: acc).isEmpty && rest.isEmpty) = false := rfl
      have h2 : (acc.isEmpty && (c0 :: rest).isEmpty) = false := by
        simp
      rw [h1, h2, if_neg Bool.false_ne_true, if_neg Bool.false_ne_true]
      simp

theorem joinSpaceL_cons_cons (x y : List Char) (ys : List (List Char)) :
    joinSpaceL (x :: y :: ys) = x ++ ' ' :: joinSpaceL (y :: ys) := rfl

theorem joinSpaceL_ne_nil {x : List Char} {xs : List (List Char)}
    (hx : x ≠ []) : joinSpaceL (x :: xs) ≠ [] := by
  cases xs with
  | nil => exact hx
  | cons y ys =>
      rw [joinSpaceL_cons_cons]
      simp

theorem joinSpaceL_mem :
    ∀ {ls : List (List Char)} {c : Char}, c ∈ joinSpaceL ls →
      c = ' ' ∨ ∃ l ∈ ls, c ∈ l := by
  intro ls
  induction ls with
  | nil => intro c h; simp [joinSpaceL] at h
  | cons x xs ih =>
      intro c h
      cases xs with
      | nil =>
          exact Or.inr ⟨x, List.mem_cons_self _ _, h⟩
      | cons y ys =>
          rw [joinSpaceL_cons_cons, List.mem_append] at h
          rcases h with h | h
          · exact Or.inr ⟨x, List.mem_cons_self _ _, h⟩
          · rcases List.mem_cons.mp h with rfl | h
            · exact Or.inl rfl
            · rcases ih h with h | ⟨l, hl, hcl⟩
              · exact Or.inl h
              · exact Or.inr ⟨l, List.mem_cons_of_mem _ hl, hcl⟩

theorem joinSpaceL_head {x : List Char} {xs : List (List Char)}
    (hx : x ≠ []) : (joinSpaceL (x :: xs)).head? = x.head? := by
  cases xs with
  | nil => rfl
  | cons y ys =>
      rw [joinSpaceL_cons_cons]
      cases x with
      | nil => exact absurd rfl hx
      | cons a t => rfl

theorem joinSpaceL_getLast :
    ∀ {ls : List (List Char)},
      (∀ l ∈ ls, l ≠ [] ∧ ∀ c ∈ l.getLast?, isPyWs c = false) →
      ∀ c ∈ (joinSpaceL ls).getLast?, isPyWs c = false := by
  intro ls
  induction ls with
  | nil => intro _ c hc; simp [joinSpaceL] at hc
  | cons x xs ih =>
      intro h c hc
      cases xs with
      | nil => exact (h x (List.mem_cons_self _ _)).2 c hc
      | cons y ys =>
          rw [joinSpaceL_cons_cons, List.getLast?_append] at hc
          have hyne : joinSpaceL (y :: ys) ≠ [] :=
            joinSpaceL_ne_nil (h y (List.mem_cons_of_mem _
              (List.mem_cons_self _ _))).1
          have hJ : (' ' :: joinSpaceL (y :: ys)).getLast? =
              (joinSpaceL (y :: ys)).getLast? := by
            rw [getLast?_cons_or]
            cases hg : (joinSpaceL (y :: ys)).getLast? with
            | none => exact absurd (List.getLast?_eq_none_iff.mp hg) hyne
            | some g => rfl
          rw [hJ] at hc
          cases hg : (joinSpaceL (y :: ys)).getLast? with
          | none => exact absurd (List.getLast?_eq_none_iff.mp hg) hyne
          | some g =>
              rw [hg] at hc
              simp only [Option.or_some, Option.mem_def,
                Option.some_inj] at hc
              subst hc
              exact ih (fun l hl => h l (List.mem_cons_of_mem _ hl)) g
                (by rw [hg]; rfl)

theorem preprocessL_kept (l : List Char) :
    ∀ c ∈ preprocessL l, keptOcr c = true := by
  intro c hc
  unfold preprocessL at hc
  exact (List.mem_filter.mp hc).2

theorem preprocessL_stable {y : List Char}
    (hy : ∀ c ∈ y, keptOcr c = true) :
    preprocessL (preprocessL y) = preprocessL y := by
  have hspace : keptOcr ' ' = true := by decide
  set lines := ((splitlinesL y []).map pyStripL).filter
    (fun l => !l.isEmpty) with hlines_def
  have hlines_ne : ∀ l ∈ lines, l ≠ [] := by
    intro l hl
    have h2 := (List.mem_filter.mp hl).2
    simpa using h2
  have hlines_strip : ∀ l ∈ lines, ∃ l0, l = pyStripL l0 ∧
      ∀ c ∈ l0, c ∈ y := by
    intro l hl
    have h1 := (List.mem_filter.mp hl).1
    obtain ⟨l0, hl0, rfl⟩ := List.mem_map.mp h1
    refine ⟨l0, rfl, ?_⟩
    intro c hc
    rcases splitlinesL_subset y [] l0 c hl0 hc with h | h
    · exact h
    · exact absurd h (List.not_mem_nil c)
  have hlines_head : ∀ l ∈ lines, ∀ c ∈ l.head?, isPyWs c = false := by
    intro l hl
    obtain ⟨l0, rfl, _⟩ := hlines_strip l hl
    exact fun c hc => pyStripL_head c hc
  have hlines_last : ∀ l ∈ lines, ∀ c ∈ l.getLast?, isPyWs c = false := by
    intro l hl
    obtain ⟨l0, rfl, _⟩ := hlines_strip l hl
    exact fun c hc => pyStripL_getLast c hc
  have hlines_kept : ∀ l ∈ lines, ∀ c ∈ l, keptOcr c = true := by
    intro l hl c hc
    obtain ⟨l0, rfl, hsub⟩ := hlines_strip l hl
    exact hy c (hsub c (pyStripL_subset hc))
  set w := joinSpaceL lines with hw_def
  set z := collapseWs w with hz_def
  have hw_kept : ∀ c ∈ w, keptOcr c = true := by
    intro c hc
    rcases joinSpaceL_mem hc with rfl | ⟨l, hl, hcl⟩
    · exact hspace
    · exact hlines_kept l hl c hcl
  have hz_kept : ∀ c ∈ z, keptOcr c = true := by
    intro c hc
    rcases collapseWsAux_mem hc with rfl | ⟨h1, _⟩
    · exact hspace
    · exact hw_kept c h1
  have hpre_y : preprocessL y = z := by
    unfold preprocessL unicodeNFC
    rw [← hlines_def, ← hw_def, ← hz_def]
    exact List.filter_eq_self.mpr hz_kept
  rw [hpre_y]
  have hz_ws : ∀ c ∈ z, isPyWs c = true → c = ' ' := by
    intro c hc hws
    rcases collapseWsAux_mem hc with rfl | ⟨_, h2⟩
    · rfl
    · rw [hws] at h2
      exact absurd h2 (by simp)
  have hz_chain : WsChain z := collapseWsAux_chain w false
  have hz_nobreak : ∀ c ∈ z, isLineBreak c = false := by
    intro c hc
    cases hbr : isLineBreak c with
    | false => rfl
    | true =>
        have hws := isLineBreak_ws hbr
        have hsp := hz_ws c hc hws
        subst hsp
        exact absurd hbr (by decide)
  by_cases hzn : z = []
  · rw [hzn]
    rfl
  · have hz_head : ∀ c ∈ z.head?, isPyWs c = false := by
      rw [hz_def]
      apply collapseWs_head
      cases hl : lines with
      | nil =>
          exfalso
          apply hzn
          rw [hz_def, hw_def, hl]
          rfl
      | cons l0 ls =>
          have hl0mem : l0 ∈ lines := by
            rw [hl]; exact List.mem_cons_self _ _
          rw [hw_def, hl, joinSpaceL_head (hlines_ne l0 hl0mem)]
          exact hlines_head l0 hl0mem
    have hz_last : ∀ c ∈ z.getLast?, isPyWs c = false := by
      rw [hz_def]
      apply collapseWsAux_getLast
      rw [hw_def]
      apply joinSpaceL_getLast
      intro l hl
      exact ⟨hlines_ne l hl, hlines_last l hl⟩
    have hzE : z.isEmpty = false := by
      cases hzz : z with
      | nil => exact absurd hzz hzn
      | cons a t => rfl
    unfold preprocessL unicodeNFC
    rw [splitlines_no_break z [] hz_nobreak]
    rw [show (([] : List Char).isEmpty && z.isEmpty) = false from
      by rw [hzE]; rfl]
    rw [if_neg Bool.false_ne_true]
    rw [show ([] : List Char).reverse ++ z = z from by simp]
    simp only [List.map_cons, List.map_nil]
    rw [pyStripL_eq_self hz_head hz_last]
    have hfz : List.filter (fun l => !l.isEmpty) [z] = [z] := by
      rw [List.filter_cons, hzE]
      rfl
    rw [hfz]
    rw [show joinSpaceL [z] = z from rfl]
    rw [show collapseWs z = z from collapseWs_eq_self hz_ws hz_chain]
    exact List.filter_eq_self.mpr hz_kept

/-- C5 counterexample: the normalizer is not idempotent.  On `"a ? b"` the
artifact filter removes `'?'` between two (already collapsed) single spaces,
leaving the double space `"a  b"`; a second application collapses it to
`"a b"`. -/
theorem C5_counterexample :
    preprocess_ocr_text "a ? b" = "a  b" ∧
      preprocess_ocr_text (preprocess_ocr_text "a ? b") = "a b" ∧
      preprocess_ocr_text (preprocess_ocr_text "a ? b") ≠
        preprocess_ocr_text "a ? b" := by
  refine ⟨by decide, by decide, by decide⟩

/-- C5 (amended): `preprocess_ocr_text` is not idempotent — removing a
filtered character can merge two whitespace runs that only a later pass
collapses — but it stabilizes after two applications:
`normalize ∘ normalize` is idempotent, i.e.
`normalize(normalize(normalize(x))) = normalize(normalize(x))` for every
input. -/
theorem C5_normalizer_stabilizes (x : String) :
    preprocess_ocr_text (preprocess_ocr_text (preprocess_ocr_text x)) =
      preprocess_ocr_text (preprocess_ocr_text x) := by
  unfold preprocess_ocr_text
  exact congrArg String.mk (preprocessL_stable (preprocessL_kept x.data))

/-! ## Gemini text structuring

`EnhancedPDFTextDetector.structure_text_with_gemini`
(src/pdf_to_txt_multilingual.py, lines 407-511).  The generative call is the
oracle `GeminiResult` (`failure` = any exception inside the `try`, `ok t` =
a response with `response.text = t`, the empty string being falsy).  The
markdown-fence cleanup (two `re.sub` calls removing ``` fences) is
abstracted as an arbitrary `cleanupFences` function: every statement below
is proved for all of them.  The content check compares
`len(structured.replace(' ', '').replace('\n', ''))` against
`original_length * 0.7` in IEEE doubles; the model uses the exact rational
comparison `10 * structured < 7 * original`, which agrees except possibly
at exact representation ties of the float product. -/

/-- `len(s.replace(' ', '').replace('\n', ''))`: length after removing
spaces and newlines only — tabs and other whitespace still count. -/
def nonSpaceNewlineLen (s : String) : Nat :=
  (s.data.filter (fun c => !(c == ' ') && !(c == '\n'))).length

/-- From the spec's words: the non-whitespace length of a string (every
whitespace character removed).  Used only to compare the spec's measure with
the code's `nonSpaceNewlineLen`. -/
def nonWhitespaceLen_spec (s : String) : Nat :=
  (s.data.filter (fun c => !isPyWs c)).length

/-- Outcome of the `model.generate_content` call. -/
inductive GeminiResult
  | failure
  | ok (text : String)
  deriving DecidableEq, Repr

/-- `structure_text_with_gemini`: passthrough when the API key is missing,
the input is blank, the call raises, the response is empty, or the
structured text retains less than 70% of the input's space/newline-stripped
length; otherwise the cleaned structured text. -/
def structure_text_with_gemini (hasApiKey : Bool) (raw_text : String)
    (response : GeminiResult) (cleanupFences : String → String) : String :=
  if !hasApiKey || pyStrip raw_text == "" then raw_text
  else
    match response with
    | .failure => raw_text
    | .ok t =>
        if t == "" then raw_text
        else
          let structured := cleanupFences (pyStrip t)
          if 10 * nonSpaceNewlineLen structured <
              7 * nonSpaceNewlineLen raw_text then raw_text
          else structured

/-- C3 counterexample: the code measures length after removing only spaces
and newlines, not all whitespace.  With input `"abcdefghij"` (10 content
characters) and structured response `"a\t\t\t\tbc"` (3 content characters
plus 4 tabs), the true non-whitespace retention is 3/10 < 0.7, yet the code
counts the tabs (7 ≥ 0.7·10), keeps the structured text, and does not pass
through. -/
theorem C3_counterexample :
    structure_text_with_gemini true "abcdefghij"
        (GeminiResult.ok "a\t\t\t\tbc") id = "a\t\t\t\tbc" ∧
      10 * nonWhitespaceLen_spec "a\t\t\t\tbc" <
        7 * nonWhitespaceLen_spec "abcdefghij" ∧
      "a\t\t\t\tbc" ≠ "abcdefghij" := by
  refine ⟨by decide, by decide, by decide⟩

/-- C3 (amended): with retention measured as the code does — length after
removing spaces and newlines only (tabs count as content) — the stage
returns the input exactly when the call fails, returns empty, or the
cleaned structured text retains less than 70%; and the result is always
either the input itself or the cleaned structured text with
space/newline-stripped retention at least 0.7. -/
theorem C3_structuring (hasApiKey : Bool) (raw : String)
    (r : GeminiResult) (cleanup : String → String) :
    (structure_text_with_gemini hasApiKey raw GeminiResult.failure cleanup =
      raw) ∧
    (structure_text_with_gemini hasApiKey raw (GeminiResult.ok "") cleanup =
      raw) ∧
    (∀ t, r = GeminiResult.ok t →
        10 * nonSpaceNewlineLen (cleanup (pyStrip t)) <
            7 * nonSpaceNewlineLen raw →
        structure_text_with_gemini hasApiKey raw r cleanup = raw) ∧
    (structure_text_with_gemini hasApiKey raw r cleanup = raw ∨
      ∃ t, r = GeminiResult.ok t ∧
        structure_text_with_gemini hasApiKey raw r cleanup =
          cleanup (pyStrip t) ∧
        7 * nonSpaceNewlineLen raw ≤
          10 * nonSpaceNewlineLen (cleanup (pyStrip t))) := by
  refine ⟨?_, ?_, ?_, ?_⟩
  · unfold structure_text_with_gemini
    split
    · rfl
    · rfl
  · unfold structure_text_with_gemini
    split
    · rfl
    · rfl
  · intro t hr hlt
    subst hr
    unfold structure_text_with_gemini
    split
    · rfl
    · dsimp only
      cases ht : (t == "")
      · rw [if_neg Bool.false_ne_true]
        rw [if_pos hlt]
      · rw [if_pos rfl]
  · unfold structure_text_with_gemini
    split
    · exact Or.inl rfl
    · match r with
      | .failure => exact Or.inl rfl
      | .ok t =>
          dsimp only
          cases ht : (t == "")
          · rw [if_neg Bool.false_ne_true]
            by_cases hlt : 10 * nonSpaceNewlineLen (cleanup (pyStrip t)) <
                7 * nonSpaceNewlineLen raw
            · rw [if_pos hlt]
              exact Or.inl rfl
            · rw [if_neg hlt]
              exact Or.inr ⟨t, rfl, rfl, by omega⟩
          · rw [if_pos rfl]
            exact Or.inl rfl

/-- C3 witness: the amended theorem applied at a failing call. -/
theorem C3_structuring_witness :
    structure_text_with_gemini true "abcd" GeminiResult.failure id =
      "abcd" :=
  (C3_structuring true "abcd" GeminiResult.failure id).1

/-! ## Startup evaluator JSON pipeline

`StartupEvaluator.evaluate_idea` (recovery part, src/prompt.py, lines
167-192), `_normalize_results` (lines 194-260) and `_attempt_sanitize_json`
(lines 262-307).  JSON values are modelled by `JValue` (numbers as `ℚ`,
objects as association lists in insertion order — Python dicts cannot hold
duplicate keys, and every lookup here returns the first match).
`json.loads` is the standard library and enters as the oracle
`jsonParse : String → Option JValue` (`none` = `JSONDecodeError`). -/

inductive JValue where
  | jnull
  | jbool (b : Bool)
  | jnum (q : ℚ)
  | jstr (s : String)
  | jarr (xs : List JValue)
  | jobj (fields : List (String × JValue))

/-- Python truthiness of a JSON-decoded value. -/
def pyTruthy : JValue → Bool
  | .jnull => false
  | .jbool b => b
  | .jnum q => decide (q ≠ 0)
  | .jstr s => !(s == "")
  | .jarr xs => !xs.isEmpty
  | .jobj fs => !fs.isEmpty

mutual
/-- Python `str(·)` on a JSON-decoded value (simplified rendering for
containers and numbers; no claim depends on the rendered text, only on the
result being a string). -/
def pyStr : JValue → String
  | .jnull => "None"
  | .jbool b => if b then "True" else "False"
  | .jnum q => toString q
  | .jstr s => s
  | .jarr xs => "[" ++ pyStrList xs ++ "]"
  | .jobj fs => "\x7b" ++ pyStrFields fs ++ "\x7d"
def pyStrList : List JValue → String
  | [] => ""
  | [x] => pyStr x
  | x :: xs => pyStr x ++ ", " ++ pyStrList xs
def pyStrFields : List (String × JValue) → String
  | [] => ""
  | [(k, v)] => k ++ ": " ++ pyStr v
  | (k, v) :: xs => k ++ ": " ++ pyStr v ++ ", " ++ pyStrFields xs
end

/-- The subset of Python `float(str)` used here: optional surrounding
whitespace, optional sign, decimal digits with an optional fractional part
(`"7"`, `" 3.5 "`, `"-2."`, `".5"`); other strings fail. -/
def pyFloatOfString (s : String) : Option ℚ :=
  let l := pyStripL s.data
  let p : Bool × List Char :=
    match l with
    | '-' :: rest => (true, rest)
    | '+' :: rest => (false, rest)
    | _ => (false, l)
  let body := p.2
  let ip := body.takeWhile (fun c => c != '.')
  let rest := body.drop ip.length
  let fp := rest.drop 1
  if (ip.all (·.isDigit) && fp.all (·.isDigit) &&
      (!ip.isEmpty || !fp.isEmpty) &&
      (rest.isEmpty || !(fp.contains '.'))) then
    let ipv : ℚ := (ip.foldl (fun a c => a * 10 + (c.toNat - 48)) 0 : Nat)
    let fpv : ℚ := (fp.foldl (fun a c => a * 10 + (c.toNat - 48)) 0 : Nat)
    let q := ipv + fpv / (10 ^ fp.length)
    some (if p.1 then -q else q)
  else none

/-- Python `float(v)`: numbers pass through, booleans map to 0/1 (`bool`
subclasses `int`), numeric strings parse; `None`, lists and dicts raise
(`none`). -/
def pyFloat : JValue → Option ℚ
  | .jnum q => some q
  | .jbool b => some (if b then 1 else 0)
  | .jstr s => pyFloatOfString s
  | _ => none

/-- `isinstance(v, (int, float))` (`True` also for `bool`). -/
def isNumLike : JValue → Bool
  | .jnum _ => true
  | .jbool _ => true
  | _ => false

/-- `isinstance(v, str)`. -/
def isStrB : JValue → Bool
  | .jstr _ => true
  | _ => false

/-- `d.get(k)` on an association-list object. -/
def jGet (fs : List (String × JValue)) (k : String) : Option JValue :=
  (fs.find? (fun p => p.1 == k)).map (·.2)

/-- `d[k] = v`: update the existing entry in place, else append. -/
def jSet (fs : List (String × JValue)) (k : String) (v : JValue) :
    List (String × JValue) :=
  if fs.any (fun p => p.1 == k) then
    fs.map (fun p => if p.1 == k then (p.1, v) else p)
  else fs ++ [(k, v)]

/-- Field access on a `JValue` (for stating results). -/
def getField (v : JValue) (k : String) : Option JValue :=
  match v with
  | .jobj fs => jGet fs k
  | _ => none

/-- The `name = item.get("criterion") or item.get("name") or
item.get("key") or f"Metric_{idx}"` chain (first truthy operand). -/
def orChainName (item : List (String × JValue)) (idx : Nat) : JValue :=
  let c1 := (jGet item "criterion").getD .jnull
  let c2 := (jGet item "name").getD .jnull
  let c3 := (jGet item "key").getD .jnull
  if pyTruthy c1 then c1
  else if pyTruthy c2 then c2
  else if pyTruthy c3 then c3
  else .jstr ("Metric_" ++ toString idx)

/-- Dictionary key taken from a truthy name value.  Python uses the value
itself as the `dict` key; string keys (the JSON case) are kept verbatim and
other values are represented by their rendering — no claim depends on key
identity. -/
def keyOf : JValue → String
  | .jstr s => s
  | v => pyStr v

/-- The numeric value extracted from a dict-shaped score item:
`val = item.get("score") if isinstance(item.get("score"), (int, float))
else item.get("value")`, then `float(val) if val is not None else None`,
with coercion failure giving `None`. -/
def scoreItemVal (fields : List (String × JValue)) : Option ℚ :=
  let scoreV := (jGet fields "score").getD .jnull
  let val := if isNumLike scoreV then scoreV
    else (jGet fields "value").getD .jnull
  match val with
  | .jnull => none
  | v => pyFloat v

/-- The per-item body of the list-shaped `scores` conversion loop. -/
def scoreItemUpdate (idx : Nat) (acc : List (String × JValue)) :
    JValue → List (String × JValue)
  | .jobj fields =>
      (match scoreItemVal fields with
       | some q => jSet acc (keyOf (orChainName fields idx)) (.jnum q)
       | none => acc)
  | .jarr (a :: b :: _) =>
      (match pyFloat b with
       | some q => jSet acc (pyStr a) (.jnum q)
       | none => acc)
  | .jarr [] => jSet acc ("Metric_" ++ toString idx) (.jnum 0)
  | .jarr [_] => jSet acc ("Metric_" ++ toString idx) (.jnum 0)
  | _ => jSet acc ("Metric_" ++ toString idx) (.jnum 0)

/-- The list-shaped `scores` conversion loop of `_normalize_results`
(`enumerate(scores, start=1)`). -/
def convertScoresAux (idx : Nat) (acc : List (String × JValue)) :
    List JValue → List (String × JValue)
  | [] => acc
  | item :: rest =>
      convertScoresAux (idx + 1) (scoreItemUpdate idx acc item) rest

/-- Normalization of the `scores` field: list → converted dict, dict →
every value coerced with `float(v)` and defaulted to `0.0` on failure,
anything else → `{}`. -/
def normalizeScores : JValue → JValue
  | .jarr items => .jobj (convertScoresAux 1 [] items)
  | .jobj fields => .jobj (fields.map (fun p =>
      (p.1, match pyFloat p.2 with
            | some q => JValue.jnum q
            | none => JValue.jnum 0)))
  | _ => .jobj []

/-- Normalization of `strengths` / `risks` / `suggestions`: lists have
every item stringified, a bare string becomes a singleton list, anything
else becomes `[]`. -/
def normalizeStrField (v : Option JValue) : JValue :=
  match v.getD (.jarr []) with
  | .jarr xs => .jarr (xs.map (fun x => .jstr (pyStr x)))
  | .jstr s => .jarr [.jstr s]
  | _ => .jarr []

/-- `StartupEvaluator._normalize_results`. -/
def normalize_results (data : JValue) : JValue :=
  match data with
  | .jobj fields =>
      let f1 := jSet fields "scores"
        (normalizeScores ((jGet fields "scores").getD (.jobj [])))
      let f2 := jSet f1 "strengths" (normalizeStrField (jGet f1 "strengths"))
      let f3 := jSet f2 "risks" (normalizeStrField (jGet f2 "risks"))
      let f4 := jSet f3 "suggestions"
        (normalizeStrField (jGet f3 "suggestions"))
      let f5 := if isStrB ((jGet f4 "verdict").getD .jnull) then f4
        else jSet f4 "verdict" (.jstr "N/A")
      .jobj f5
  | _ =>
      .jobj [("raw", data), ("scores", .jobj []), ("verdict", .jstr "N/A"),
        ("strengths", .jarr []), ("risks", .jarr []),
        ("suggestions", .jarr [])]

/-- Index of the first occurrence of a character (`str.find`). -/
def firstIdxOf (c : Char) (l : List Char) : Option Nat :=
  l.findIdx? (· == c)

/-- Index of the last occurrence of a character (`str.rfind`). -/
def lastIdxOf (c : Char) (l : List Char) : Option Nat :=
  match l.reverse.findIdx? (· == c) with
  | none => none
  | some i => some (l.length - 1 - i)

/-- The character scan of `_attempt_sanitize_json`: escape raw newlines
inside quoted strings. -/
def sanitizeChars : List Char → Bool → Char → Bool → List Char
  | [], _, _, _ => []
  | ch :: rest, inString, quote, escape =>
      if inString then
        if escape then ch :: sanitizeChars rest true quote false
        else if ch = '\\' then ch :: sanitizeChars rest true quote true
        else if ch = quote then ch :: sanitizeChars rest false ' ' false
        else if ch = '\n' ∨ ch = '\x0d' then
          '\\' :: 'n' :: sanitizeChars rest true quote false
        else ch :: sanitizeChars rest true quote false
      else
        if ch = '"' ∨ ch = '\x27' then ch :: sanitizeChars rest true ch false
        else ch :: sanitizeChars rest false quote false

/-- `StartupEvaluator._attempt_sanitize_json`: extract the substring
between the first `{` and the last `}` and escape newlines inside strings;
return the input unchanged when no such block exists. -/
def _attempt_sanitize_json (raw_output : String) : String :=
  let l := raw_output.data
  match firstIdxOf '\x7b' l, lastIdxOf '\x7d' l with
  | some s, some e =>
      if e ≤ s then raw_output
      else ⟨sanitizeChars ((l.drop s).take (e + 1 - s)) false ' ' false⟩
  | _, _ => raw_output

/-- The JSON-recovery part of `StartupEvaluator.evaluate_idea` (lines
167-192): parse, on failure parse the sanitized candidate, on failure
normalize the fallback object carrying the raw text.  The function is
total: the recovery path cannot raise. -/
def evaluate_idea_recover (jsonParse : String → Option JValue)
    (raw_output : String) : JValue :=
  match jsonParse raw_output with
  | some v => normalize_results v
  | none =>
      match jsonParse (_attempt_sanitize_json raw_output) with
      | some v => normalize_results v
      | none =>
          normalize_results (.jobj [("raw", .jstr raw_output),
            ("scores", .jobj []), ("verdict", .jstr "N/A"),
            ("strengths", .jarr []), ("risks", .jarr []),
            ("suggestions", .jarr [])])

theorem find?_pair_cons (q : String × JValue) (qs : List (String × JValue))
    (key : String) :
    List.find? (fun r => r.1 == key) (q :: qs) =
      if q.1 == key then some q
      else List.find? (fun r => r.1 == key) qs := by
  cases hq : (q.1 == key) <;> simp [List.find?_cons, hq]

theorem jGet_map_update (fs : List (String × JValue)) (k : String)
    (v : JValue) (k2 : String) :
    jGet (fs.map (fun p => if p.1 == k then (p.1, v) else p)) k2 =
      if k2 = k then (jGet fs k).map (fun _ => v) else jGet fs k2 := by
  unfold jGet
  induction fs with
  | nil => simp
  | cons p ps ih =>
      have hfst : ((if p.1 == k then (p.1, v) else p)).1 = p.1 := by
        split <;> rfl
      rw [List.map_cons, find?_pair_cons, find?_pair_cons, hfst]
      by_cases hkk : k2 = k
      · subst hkk
        rw [if_pos rfl]
        by_cases hk2 : p.1 = k2
        · have hpk : (p.1 == k2) = true := beq_iff_eq.mpr hk2
          rw [hpk, if_pos rfl, if_pos rfl, if_pos rfl]
          rfl
        · have hpk : (p.1 == k2) = false := beq_eq_false_iff_ne.mpr hk2
          rw [hpk, if_neg Bool.false_ne_true, if_neg Bool.false_ne_true]
          have h2 := ih
          rw [if_pos rfl] at h2
          exact h2
      · rw [if_neg hkk, find?_pair_cons]
        by_cases hk2 : p.1 = k2
        · have hpk2 : (p.1 == k2) = true := beq_iff_eq.mpr hk2
          have hpk : (p.1 == k) = false :=
            beq_eq_false_iff_ne.mpr (hk2 ▸ hkk)
          rw [hpk2, if_pos rfl, if_pos rfl, if_neg
            (by rw [hpk]; exact Bool.false_ne_true)]
        · have hpk2 : (p.1 == k2) = false := beq_eq_false_iff_ne.mpr hk2
          rw [hpk2, if_neg Bool.false_ne_true, if_neg Bool.false_ne_true]
          have h2 := ih
          rw [if_neg hkk] at h2
          exact h2

theorem jGet_jSet_same (fs : List (String × JValue)) (k : String)
    (v : JValue) : jGet (jSet fs k v) k = some v := by
  unfold jSet
  cases hany : fs.any (fun p => p.1 == k)
  · rw [if_neg Bool.false_ne_true]
    unfold jGet
    rw [List.find?_append]
    have hnone : fs.find? (fun p => p.1 == k) = none := by
      rw [List.find?_eq_none]
      intro x hx hpx
      have : fs.any (fun p => p.1 == k) = true :=
        List.any_eq_true.mpr ⟨x, hx, hpx⟩
      rw [hany] at this
      exact absurd this (by simp)
    rw [hnone]
    simp [jGet]
  · rw [if_pos rfl, jGet_map_update, if_pos rfl]
    have hsome : (fs.find? (fun p => p.1 == k)).isSome := by
      rw [List.find?_isSome]
      obtain ⟨x, hx, hpx⟩ := List.any_eq_true.mp hany
      exact ⟨x, hx, hpx⟩
    cases hf : fs.find? (fun p => p.1 == k)
    · rw [hf] at hsome; exact absurd hsome (by simp)
    · rw [jGet, hf]; rfl

theorem jGet_jSet_ne (fs : List (String × JValue)) (k k2 : String)
    (v : JValue) (h : k2 ≠ k) : jGet (jSet fs k v) k2 = jGet fs k2 := by
  unfold jSet
  cases hany : fs.any (fun p => p.1 == k)
  · rw [if_neg Bool.false_ne_true]
    unfold jGet
    rw [List.find?_append]
    cases hf : fs.find? (fun p => p.1 == k2)
    · have hsingle : ([(k, v)].find? (fun p => p.1 == k2)) = none := by
        rw [List.find?_eq_none]
        intro x hx hpx
        rw [List.mem_singleton] at hx
        subst hx
        exact h (beq_iff_eq.mp hpx).symm
      rw [hsingle]
      rfl
    · rfl
  · rw [if_pos rfl, jGet_map_update, if_neg h]

/-- `_attempt_sanitize_json` returns its input unchanged when it contains
no `{` at all. -/
theorem sanitize_no_brace {raw : String} (h : '\x7b' ∉ raw.data) :
    _attempt_sanitize_json raw = raw := by
  unfold _attempt_sanitize_json firstIdxOf
  dsimp only
  have hnone : raw.data.findIdx? (· == '\x7b') = none := by
    rw [List.findIdx?_eq_none_iff]
    intro x hx
    cases hxe : (x == '\x7b')
    · rfl
    · exact absurd (beq_iff_eq.mp hxe ▸ hx) h
  rw [hnone]

/-- C4: when both the direct parse and the parse of the sanitized candidate
fail, the recovery path returns (never raises) the normalized fallback
object: the raw text under `"raw"`, the neutral verdict `"N/A"`, and all
other expected fields defaulted; and an input with no `{` is passed to the
second parse unchanged, so both parses coincide there. -/
theorem C4_json_recovery (jsonParse : String → Option JValue)
    (raw_output : String) (h1 : jsonParse raw_output = none)
    (h2 : jsonParse (_attempt_sanitize_json raw_output) = none) :
    evaluate_idea_recover jsonParse raw_output =
      JValue.jobj [("raw", JValue.jstr raw_output),
        ("scores", JValue.jobj []), ("verdict", JValue.jstr "N/A"),
        ("strengths", JValue.jarr []), ("risks", JValue.jarr []),
        ("suggestions", JValue.jarr [])] ∧
    ('\x7b' ∉ raw_output.data →
      _attempt_sanitize_json raw_output = raw_output) := by
  constructor
  · unfold evaluate_idea_recover
    rw [h1, h2]
    rfl
  · exact fun h => sanitize_no_brace h

/-- C4 witness: a parser failing on `"hello"` (which contains no brace)
yields exactly the normalized fallback object. -/
theorem C4_json_recovery_witness :
    evaluate_idea_recover (fun _ => none) "hello" =
      JValue.jobj [("raw", JValue.jstr "hello"),
        ("scores", JValue.jobj []), ("verdict", JValue.jstr "N/A"),
        ("strengths", JValue.jarr []), ("risks", JValue.jarr []),
        ("suggestions", JValue.jarr [])] ∧
    _attempt_sanitize_json "hello" = "hello" :=
  ⟨(C4_json_recovery (fun _ => none) "hello" rfl rfl).1,
    (C4_json_recovery (fun _ => none) "hello" rfl rfl).2 (by decide)⟩

/-- `v` is a number. -/
def isNumB : JValue → Bool
  | .jnum _ => true
  | _ => false

/-- `v` is an object all of whose values are numbers (floats). -/
def isFloatMapB : JValue → Bool
  | .jobj fs => fs.all (fun p => isNumB p.2)
  | _ => false

/-- `v` is a list all of whose items are strings. -/
def isStrListB : JValue → Bool
  | .jarr xs => xs.all isStrB
  | _ => false

/-- `v` is an object. -/
def isObjB : JValue → Bool
  | .jobj _ => true
  | _ => false

theorem jSet_isNum {fs : List (String × JValue)} {k : String} {v : JValue}
    (hfs : ∀ p ∈ fs, isNumB p.2 = true) (hv : isNumB v = true) :
    ∀ p ∈ jSet fs k v, isNumB p.2 = true := by
  intro p hp
  unfold jSet at hp
  split at hp
  · obtain ⟨q, hq, rfl⟩ := List.mem_map.mp hp
    split
    · exact hv
    · exact hfs q hq
  · rcases List.mem_append.mp hp with hp | hp
    · exact hfs p hp
    · rw [List.mem_singleton] at hp
      subst hp
      exact hv

theorem scoreItemUpdate_nums {idx : Nat} {acc : List (String × JValue)}
    {item : JValue} (hacc : ∀ p ∈ acc, isNumB p.2 = true) :
    ∀ p ∈ scoreItemUpdate idx acc item, isNumB p.2 = true := by
  cases item with
  | jobj fields =>
      rw [scoreItemUpdate]
      cases hv : scoreItemVal fields with
      | none => exact hacc
      | some q => exact jSet_isNum hacc rfl
  | jarr items2 =>
      match items2 with
      | [] => exact jSet_isNum hacc rfl
      | [a] => exact jSet_isNum hacc rfl
      | a :: b :: t =>
          rw [scoreItemUpdate]
          cases hb : pyFloat b with
          | none => exact hacc
          | some q => exact jSet_isNum hacc rfl
  | jnull => exact jSet_isNum hacc rfl
  | jbool b => exact jSet_isNum hacc rfl
  | jnum q => exact jSet_isNum hacc rfl
  | jstr s => exact jSet_isNum hacc rfl

theorem convertScoresAux_nums :
    ∀ (items : List JValue) (idx : Nat) (acc : List (String × JValue)),
      (∀ p ∈ acc, isNumB p.2 = true) →
      ∀ p ∈ convertScoresAux idx acc items, isNumB p.2 = true := by
  intro items
  induction items with
  | nil => intro idx acc hacc; exact hacc
  | cons item rest ih =>
      intro idx acc hacc
      rw [convertScoresAux]
      exact ih _ _ (scoreItemUpdate_nums hacc)

theorem isFloatMapB_normalizeScores (v : JValue) :
    isFloatMapB (normalizeScores v) = true := by
  match v with
  | .jnull | .jbool _ | .jnum _ | .jstr _ => rfl
  | .jarr items =>
      rw [normalizeScores, isFloatMapB, List.all_eq_true]
      intro p hp
      exact convertScoresAux_nums items 1 [] (by intro p hp; simp at hp)
        p hp
  | .jobj fields =>
      rw [normalizeScores, isFloatMapB, List.all_eq_true]
      intro p hp
      obtain ⟨q, _, rfl⟩ := List.mem_map.mp hp
      cases pyFloat q.2 <;> rfl

theorem isStrListB_normalizeStrField (v : Option JValue) :
    isStrListB (normalizeStrField v) = true := by
  unfold normalizeStrField
  match (v.getD (.jarr [])) with
  | .jnull | .jbool _ | .jnum _ => rfl
  | .jstr s => rfl
  | .jobj _ => rfl
  | .jarr xs =>
      rw [isStrListB, List.all_eq_true]
      intro x hx
      obtain ⟨y, _, rfl⟩ := List.mem_map.mp hx
      rfl

/-- The fields of `_normalize_results` on an object input, expressed through
`getField`. -/
theorem normalize_results_obj_fields (fields : List (String × JValue)) :
    getField (normalize_results (.jobj fields)) "scores" =
        some (normalizeScores ((jGet fields "scores").getD (.jobj []))) ∧
    getField (normalize_results (.jobj fields)) "strengths" =
        some (normalizeStrField (jGet fields "strengths")) ∧
    getField (normalize_results (.jobj fields)) "risks" =
        some (normalizeStrField (jGet fields "risks")) ∧
    getField (normalize_results (.jobj fields)) "suggestions" =
        some (normalizeStrField (jGet fields "suggestions")) ∧
    ∃ v, getField (normalize_results (.jobj fields)) "verdict" = some v ∧
        isStrB v = true := by
  unfold normalize_results getField
  dsimp only
  set V := normalizeScores ((jGet fields "scores").getD (.jobj []))
    with hV
  set f1 := jSet fields "scores" V with hf1
  set g2 := normalizeStrField (jGet f1 "strengths") with hg2
  set f2 := jSet f1 "strengths" g2 with hf2
  set g3 := normalizeStrField (jGet f2 "risks") with hg3
  set f3 := jSet f2 "risks" g3 with hf3
  set g4 := normalizeStrField (jGet f3 "suggestions") with hg4
  set f4 := jSet f3 "suggestions" g4 with hf4
  have e1 : jGet f1 "strengths" = jGet fields "strengths" := by
    rw [hf1, jGet_jSet_ne _ _ _ _ (by decide)]
  have e2 : jGet f2 "risks" = jGet fields "risks" := by
    rw [hf2, jGet_jSet_ne _ _ _ _ (by decide), hf1,
      jGet_jSet_ne _ _ _ _ (by decide)]
  have e3 : jGet f3 "suggestions" = jGet fields "suggestions" := by
    rw [hf3, jGet_jSet_ne _ _ _ _ (by decide), hf2,
      jGet_jSet_ne _ _ _ _ (by decide), hf1,
      jGet_jSet_ne _ _ _ _ (by decide)]
  have hscores4 : jGet f4 "scores" = some V := by
    rw [hf4, jGet_jSet_ne _ _ _ _ (by decide), hf3,
      jGet_jSet_ne _ _ _ _ (by decide), hf2,
      jGet_jSet_ne _ _ _ _ (by decide), hf1, jGet_jSet_same]
  have hstr4 : jGet f4 "strengths" = some g2 := by
    rw [hf4, jGet_jSet_ne _ _ _ _ (by decide), hf3,
      jGet_jSet_ne _ _ _ _ (by decide), hf2, jGet_jSet_same]
  have hrisks4 : jGet f4 "risks" = some g3 := by
    rw [hf4, jGet_jSet_ne _ _ _ _ (by decide), hf3, jGet_jSet_same]
  have hsugg4 : jGet f4 "suggestions" = some g4 := by
    rw [hf4, jGet_jSet_same]
  cases hverd : isStrB ((jGet f4 "verdict").getD .jnull)
  · rw [if_neg Bool.false_ne_true]
    refine ⟨?_, ?_, ?_, ?_, ?_⟩
    · rw [jGet_jSet_ne _ _ _ _ (by decide)]
      exact hscores4
    · rw [jGet_jSet_ne _ _ _ _ (by decide), hstr4, hg2, e1]
    · rw [jGet_jSet_ne _ _ _ _ (by decide), hrisks4, hg3, e2]
    · rw [jGet_jSet_ne _ _ _ _ (by decide), hsugg4, hg4, e3]
    · exact ⟨JValue.jstr "N/A", jGet_jSet_same _ _ _, rfl⟩
  · rw [if_pos rfl]
    refine ⟨hscores4, ?_, ?_, ?_, ?_⟩
    · rw [hstr4, hg2, e1]
    · rw [hrisks4, hg3, e2]
    · rw [hsugg4, hg4, e3]
    · cases hjv : jGet f4 "verdict" with
      | none =>
          rw [hjv] at hverd
          exact absurd hverd (by simp [isStrB])
      | some v =>
          rw [hjv] at hverd
          exact ⟨v, rfl, hverd⟩

/-- C8 counterexample: a non-coercible score value (here an empty list) is
not dropped from the scores map — `_normalize_results` substitutes `0.0`
for it (the `except` branch sets `clean[k] = 0.0`). -/
theorem C8_counterexample :
    getField (normalize_results
        (.jobj [("scores", .jobj [("A", .jarr [])])])) "scores" =
      some (.jobj [("A", JValue.jnum 0)]) := rfl

/-- C8 (amended): in the dict-shaped scores branch every key is kept, in
order; a value coercible with `float(·)` is replaced by that float, and a
non-coercible value is replaced by `0.0` — substituted, not dropped. -/
theorem C8_scores_normalization (fields : List (String × JValue))
    (scores : List (String × JValue))
    (h : jGet fields "scores" = some (.jobj scores)) :
    getField (normalize_results (.jobj fields)) "scores" =
      some (.jobj (scores.map (fun p =>
        (p.1, match pyFloat p.2 with
              | some q => JValue.jnum q
              | none => JValue.jnum 0)))) ∧
    List.Forall₂ (fun pc ps => pc.1 = ps.1 ∧
        ((∃ q, pyFloat ps.2 = some q ∧ pc.2 = JValue.jnum q) ∨
          (pyFloat ps.2 = none ∧ pc.2 = JValue.jnum 0)))
      (scores.map (fun p =>
        (p.1, match pyFloat p.2 with
              | some q => JValue.jnum q
              | none => JValue.jnum 0))) scores := by
  constructor
  · have h1 := (normalize_results_obj_fields fields).1
    rw [h] at h1
    exact h1
  · clear h
    induction scores with
    | nil => exact List.Forall₂.nil
    | cons p ps ih =>
        rw [List.map_cons]
        refine List.Forall₂.cons ⟨rfl, ?_⟩ ih
        cases hq : pyFloat p.2 with
        | none => exact Or.inr ⟨rfl, rfl⟩
        | some q => exact Or.inl ⟨q, rfl, rfl⟩

/-- C8 witness: the amended theorem at a two-key scores map with one
coercible and one non-coercible value. -/
theorem C8_scores_normalization_witness :
    getField (normalize_results (.jobj [("scores",
        .jobj [("A", JValue.jnum (7/2)), ("B", .jarr [])])])) "scores" =
      some (.jobj [("A", JValue.jnum (7/2)), ("B", JValue.jnum 0)]) :=
  (C8_scores_normalization
    [("scores", .jobj [("A", JValue.jnum (7/2)), ("B", .jarr [])])]
    [("A", JValue.jnum (7/2)), ("B", .jarr [])] rfl).1

/-- C10: the normalized object always has the fixed shape — a scores map
whose values are all floats, a string verdict, string lists for strengths,
risks and suggestions — and a non-dict payload is preserved under `"raw"`. -/
theorem C10_normalized_shape (data : JValue) :
    (∃ s, getField (normalize_results data) "scores" = some s ∧
        isFloatMapB s = true) ∧
    (∃ v, getField (normalize_results data) "verdict" = some v ∧
        isStrB v = true) ∧
    (∃ a, getField (normalize_results data) "strengths" = some a ∧
        isStrListB a = true) ∧
    (∃ r, getField (normalize_results data) "risks" = some r ∧
        isStrListB r = true) ∧
    (∃ u, getField (normalize_results data) "suggestions" = some u ∧
        isStrListB u = true) ∧
    (isObjB data = false → getField (normalize_results data) "raw" =
        some data) := by
  cases data with
  | jobj fields =>
      obtain ⟨h1, h2, h3, h4, h5⟩ := normalize_results_obj_fields fields
      exact ⟨⟨_, h1, isFloatMapB_normalizeScores _⟩, h5,
        ⟨_, h2, isStrListB_normalizeStrField _⟩,
        ⟨_, h3, isStrListB_normalizeStrField _⟩,
        ⟨_, h4, isStrListB_normalizeStrField _⟩,
        fun hobj => absurd hobj (by simp [isObjB])⟩
  | jnull =>
      exact ⟨⟨_, rfl, rfl⟩, ⟨_, rfl, rfl⟩, ⟨_, rfl, rfl⟩, ⟨_, rfl, rfl⟩,
        ⟨_, rfl, rfl⟩, fun _ => rfl⟩
  | jbool b =>
      exact ⟨⟨_, rfl, rfl⟩, ⟨_, rfl, rfl⟩, ⟨_, rfl, rfl⟩, ⟨_, rfl, rfl⟩,
        ⟨_, rfl, rfl⟩, fun _ => rfl⟩
  | jnum q =>
      exact ⟨⟨_, rfl, rfl⟩, ⟨_, rfl, rfl⟩, ⟨_, rfl, rfl⟩, ⟨_, rfl, rfl⟩,
        ⟨_, rfl, rfl⟩, fun _ => rfl⟩
  | jstr s =>
      exact ⟨⟨_, rfl, rfl⟩, ⟨_, rfl, rfl⟩, ⟨_, rfl, rfl⟩, ⟨_, rfl, rfl⟩,
        ⟨_, rfl, rfl⟩, fun _ => rfl⟩
  | jarr xs =>
      exact ⟨⟨_, rfl, rfl⟩, ⟨_, rfl, rfl⟩, ⟨_, rfl, rfl⟩, ⟨_, rfl, rfl⟩,
        ⟨_, rfl, rfl⟩, fun _ => rfl⟩

/-- C10 witness: a bare-string payload is preserved under `"raw"`. -/
theorem C10_normalized_shape_witness :
    getField (normalize_results (JValue.jstr "oops")) "raw" =
      some (JValue.jstr "oops") :=
  (C10_normalized_shape (JValue.jstr "oops")).2.2.2.2.2 rfl

/-! ## PDF processing pipeline

`EnhancedPDFTextDetector.process_pdf` (src/pdf_to_txt_multilingual.py,
lines 563-626) together with `extract_text_from_pdf` (lines 89-125),
`extract_text_from_pdf_images` (lines 245-290), `_clean_unicode_text`
(lines 147-159) and `_clean_ocr_text` (lines 309-338).

External effects are modelled by data: each selected page is a `PdfPage`
carrying the direct PyMuPDF text (the `page_text` value at the
`if page_text:` check, i.e. after `.strip()` or the dict fallback) and the
outcome of the Vision OCR call on that page's image.
`convert_pdf_to_images` renders exactly the selected pages, so the image
list is empty exactly when the selected page list is. -/

/-- `unicodedata.normalize('NFKC', ·)` (stdlib). Modelled from the spec:
NFKC normalisation is the identity on NFKC-normal strings, and every
concrete string below is ASCII, hence NFKC-normal. -/
def unicodeNFKC (l : List Char) : List Char := l

/-- The control characters removed by `_clean_unicode_text`
(`[\x00-\x08\x0B-\x0C\x0E-\x1F\x7F]`). -/
def isCtrlChar (c : Char) : Bool :=
  c.toNat ≤ 0x08 || (0x0B ≤ c.toNat && c.toNat ≤ 0x0C) ||
    (0x0E ≤ c.toNat && c.toNat ≤ 0x1F) || c.toNat = 0x7F

/-- `re.sub(r'([।])([^\s])', r'\1 \2', ·)`: insert a space after a
devanagari danda followed by a non-whitespace character.  A match consumes
both characters, so scanning resumes after the second one. -/
def dandaAfterFix : List Char → List Char
  | '।' :: c :: rest =>
      if isPyWs c then '।' :: dandaAfterFix (c :: rest)
      else '।' :: ' ' :: c :: dandaAfterFix rest
  | c :: rest => c :: dandaAfterFix rest
  | [] => []

/-- ASCII letters, the class `[a-zA-Z]`. -/
def isAlphaEn (c : Char) : Bool :=
  ('a' ≤ c && c ≤ 'z') || ('A' ≤ c && c ≤ 'Z')

/-- `re.sub(r'([a-zA-Z])([।])', r'\1 \2', ·)`: insert a space between a
Latin letter and a following danda. -/
def dandaBeforeFix : List Char → List Char
  | a :: '।' :: rest =>
      if isAlphaEn a then a :: ' ' :: '।' :: dandaBeforeFix rest
      else a :: dandaBeforeFix ('।' :: rest)
  | c :: rest => c :: dandaBeforeFix rest
  | [] => []

/-- Sentence-final punctuation, the class `[.!?]`. -/
def isPunctEnd (c : Char) : Bool :=
  c = '.' || c = '!' || c = '?'

/-- ASCII capitals, the class `[A-Z]`. -/
def isUpperEn (c : Char) : Bool :=
  'A' ≤ c && c ≤ 'Z'

/-- `re.sub(r'([.!?])([A-Z])', r'\1 \2', ·)`: insert a space between
sentence-final punctuation and a following capital letter. -/
def punctSpaceFix : List Char → List Char
  | p :: u :: rest =>
      if isPunctEnd p && isUpperEn u then p :: ' ' :: u :: punctSpaceFix rest
      else p :: punctSpaceFix (u :: rest)
  | l => l

/-- `str.replace(pat, rep)`: replace leftmost non-overlapping occurrences.
The fuel argument (instantiated with the string length) only bounds the
recursion; with a nonempty pattern each step consumes at least one input
character, so the bound is never reached. -/
def replaceSubAux (pat rep : List Char) : Nat → List Char → List Char
  | _, [] => []
  | 0, l => l
  | fuel + 1, c :: rest =>
      if pat.isPrefixOf (c :: rest) then
        rep ++ replaceSubAux pat rep fuel (List.drop pat.length (c :: rest))
      else c :: replaceSubAux pat rep fuel rest

/-- `str.replace` on strings. -/
def pyReplace (s pat rep : String) : String :=
  ⟨replaceSubAux pat.data rep.data s.data.length s.data⟩

/-- `EnhancedPDFTextDetector._clean_unicode_text`: NFKC normalisation,
control-character removal, then the two danda spacing fixes. -/
def cleanUnicodeText (s : String) : String :=
  ⟨dandaBeforeFix (dandaAfterFix
      ((unicodeNFKC s.data).filter (fun c => !isCtrlChar c)))⟩

/-- `EnhancedPDFTextDetector._clean_ocr_text`: NFKC normalisation, the four
`ocr_fixes` replacements in dict insertion order (the duplicate `'।।'` key
keeps its first position), whitespace collapse, danda and punctuation
spacing, final `.strip()`.  The `re.sub(r'\n\s*\n', '\n\n', ·)` step is
omitted: the preceding `re.sub(r'\s+', ' ', ·)` leaves no newline in the
string, so that substitution is the identity at that point. -/
def cleanOcrText (s : String) : String :=
  if s = "" then ""
  else
    pyStrip ⟨punctSpaceFix (dandaAfterFix (collapseWs
      (pyReplace (pyReplace (pyReplace (pyReplace ⟨unicodeNFKC s.data⟩
          "ा़" "ा") "ि़" "ि") "।।" "।") " ।" "।").data))⟩

/-- Outcome of the Vision `document_text_detection` call on one page image:
`apiErr` is a response with a nonempty `error.message` (the loop does
`continue`), `noAnnot` a response without `full_text_annotation`, and
`annot t` a response whose `full_text_annotation.text` is `t`. -/
inductive OcrOutcome where
  | apiErr : OcrOutcome
  | noAnnot : OcrOutcome
  | annot : String → OcrOutcome
  deriving DecidableEq, Repr

/-- One selected page: its zero-based number, the direct PyMuPDF text (the
`page_text` value at the `if page_text:` check of `extract_text_from_pdf`)
and the OCR outcome for its rendered image. -/
structure PdfPage where
  num : Nat
  direct : String
  ocr : OcrOutcome
  deriving DecidableEq, Repr

/-- `"\n\n".join`. -/
def joinNN : List String → String
  | [] => ""
  | [x] => x
  | x :: xs => x ++ "\n\n" ++ joinNN xs

/-- The `--- Page N (No text found) ---` marker. -/
def noTextMarker (n : Nat) : String :=
  "--- Page " ++ toString (n + 1) ++ " (No text found) ---"

/-- The `--- Page N ---` header followed by the page's text. -/
def pageTextEntry (n : Nat) (txt : String) : String :=
  "--- Page " ++ toString (n + 1) ++ " ---\n" ++ txt

/-- The entry `extract_text_from_pdf` appends for one page. -/
def directPageEntry (p : PdfPage) : String :=
  if p.direct = "" then noTextMarker p.num
  else pageTextEntry p.num (cleanUnicodeText p.direct)

/-- `EnhancedPDFTextDetector.extract_text_from_pdf`: the joined page
entries and the `text_found` flag (set when some page's `page_text` is
nonempty, before cleaning). -/
def extract_text_from_pdf (pages : List PdfPage) : String × Bool :=
  (joinNN (pages.map directPageEntry), pages.any (fun p => p.direct != ""))

/-- The entry `extract_text_from_pdf_images` appends for one page:
an API error is skipped (`continue`), a missing or blank-after-cleaning
annotation yields the no-text marker, otherwise the cleaned OCR text. -/
def ocrPageEntry (p : PdfPage) : Option String :=
  match p.ocr with
  | .apiErr => none
  | .noAnnot => some (noTextMarker p.num)
  | .annot t =>
      if cleanOcrText t = "" then some (noTextMarker p.num)
      else some (pageTextEntry p.num (cleanOcrText t))

/-- `EnhancedPDFTextDetector.extract_text_from_pdf_images`. -/
def extract_text_from_pdf_images (pages : List PdfPage) : String :=
  joinNN (pages.filterMap ocrPageEntry)

/-- The two `raise Exception(...)` exits of `process_pdf` reachable in this
fragment: `"Failed to convert PDF to images for OCR processing"` and
`"No text could be extracted from the PDF"`. -/
inductive PdfError where
  | conversionFailed : PdfError
  | noExtractableContent : PdfError
  deriving DecidableEq, Repr

/-- The `extracted_text` value of `process_pdf` after Step 1: empty when
`ocr_only` is set, and the direct extraction result only when its
`text_found` flag is set and the text is nonblank. -/
def directText (ocrOnly : Bool) (pages : List PdfPage) : String :=
  if ocrOnly then ""
  else if (extract_text_from_pdf pages).2 = true ∧
      pyStrip (extract_text_from_pdf pages).1 ≠ "" then
    (extract_text_from_pdf pages).1
  else ""

/-- `EnhancedPDFTextDetector.process_pdf`, Steps 1-2 and the content check:
OCR runs when the Step 1 text is blank; an empty image list raises the
conversion error, a blank OCR result raises the no-content error. -/
def process_pdf (ocrOnly : Bool) (pages : List PdfPage) :
    Except PdfError String :=
  if pyStrip (directText ocrOnly pages) = "" then
    if pages = [] then Except.error PdfError.conversionFailed
    else if pyStrip (extract_text_from_pdf_images pages) = "" then
      Except.error PdfError.noExtractableContent
    else Except.ok (extract_text_from_pdf_images pages)
  else Except.ok (directText ocrOnly pages)

theorem mem_dropWhile_not {p : Char → Bool} {c : Char} {l : List Char}
    (hc : c ∈ l) (hp : p c = false) : c ∈ l.dropWhile p := by
  rw [← List.takeWhile_append_dropWhile p l] at hc
  rcases List.mem_append.mp hc with h | h
  · have := List.mem_takeWhile_imp h
    rw [hp] at this
    exact Bool.noConfusion this
  · exact h

theorem pyStrip_ne_empty {s : String} {c : Char} (hc : c ∈ s.data)
    (hw : isPyWs c = false) : pyStrip s ≠ "" := by
  intro h
  have hl : pyStripL s.data = [] := congrArg String.data h
  have h1 : c ∈ s.data.dropWhile isPyWs := mem_dropWhile_not hc hw
  have h2 : c ∈ (s.data.dropWhile isPyWs).reverse := List.mem_reverse.mpr h1
  have h3 : c ∈ (s.data.dropWhile isPyWs).reverse.dropWhile isPyWs :=
    mem_dropWhile_not h2 hw
  have h4 : c ∈ pyStripL s.data := List.mem_reverse.mpr h3
  rw [hl] at h4
  exact List.not_mem_nil c h4

theorem noTextMarker_dash (n : Nat) : '-' ∈ (noTextMarker n).data := by
  show '-' ∈ ("--- Page ".data ++ (toString (n + 1)).data) ++
    " (No text found) ---".data
  exact List.mem_append_left _ (List.mem_append_left _ (by decide))

theorem pageTextEntry_dash (n : Nat) (txt : String) :
    '-' ∈ (pageTextEntry n txt).data := by
  show '-' ∈ (("--- Page ".data ++ (toString (n + 1)).data) ++
    " ---\n".data) ++ txt.data
  exact List.mem_append_left _
    (List.mem_append_left _ (List.mem_append_left _ (by decide)))

theorem directPageEntry_dash (p : PdfPage) :
    '-' ∈ (directPageEntry p).data := by
  unfold directPageEntry
  split
  · exact noTextMarker_dash p.num
  · exact pageTextEntry_dash p.num _

theorem joinNN_strip_ne (e : String) (tail : List String)
    (hd : '-' ∈ e.data) : pyStrip (joinNN (e :: tail)) ≠ "" := by
  have hm : '-' ∈ (joinNN (e :: tail)).data := by
    cases tail with
    | nil => exact hd
    | cons f r =>
        show '-' ∈ (e.data ++ "\n\n".data) ++ (joinNN (f :: r)).data
        exact List.mem_append_left _ (List.mem_append_left _ hd)
  exact pyStrip_ne_empty hm (by decide)

theorem ocrPageEntry_none_iff (p : PdfPage) :
    ocrPageEntry p = none ↔ p.ocr = OcrOutcome.apiErr := by
  obtain ⟨n, d, o⟩ := p
  cases o with
  | apiErr => exact ⟨fun _ => rfl, fun _ => rfl⟩
  | noAnnot =>
      exact ⟨fun h => Option.noConfusion h, fun h => OcrOutcome.noConfusion h⟩
  | annot t =>
      constructor
      · intro h
        simp only [ocrPageEntry] at h
        split at h <;> exact Option.noConfusion h
      · intro h
        exact OcrOutcome.noConfusion h

theorem ocrPageEntry_dash {p : PdfPage} {e : String}
    (h : ocrPageEntry p = some e) : '-' ∈ e.data := by
  obtain ⟨n, d, o⟩ := p
  cases o with
  | apiErr => exact Option.noConfusion h
  | noAnnot => exact (Option.some.inj h) ▸ noTextMarker_dash n
  | annot t =>
      simp only [ocrPageEntry] at h
      split at h
      · exact (Option.some.inj h) ▸ noTextMarker_dash n
      · exact (Option.some.inj h) ▸ pageTextEntry_dash n _

/-- C6 counterexample: a single page that is empty under both strategies —
no direct text and no OCR annotation — still yields the nonblank
`(No text found)` page marker, so `process_pdf` returns it successfully
instead of raising the no-extractable-content error. -/
theorem C6_counterexample :
    process_pdf false [⟨0, "", OcrOutcome.noAnnot⟩] =
        Except.ok "--- Page 1 (No text found) ---" ∧
      process_pdf false [⟨0, "", OcrOutcome.noAnnot⟩] ≠
        Except.error PdfError.noExtractableContent :=
  ⟨rfl, fun h => Except.noConfusion h⟩

/-- C6 (amended): `process_pdf` raises the no-extractable-content error
exactly when the selected page list is nonempty, the direct strategy was
skipped (`ocr_only`) or found no text on any page, and every page's OCR
call came back as an API error.  A page that merely lacks text under both
strategies produces a nonblank page marker and no error. -/
theorem C6_no_content_error (ocrOnly : Bool) (pages : List PdfPage) :
    process_pdf ocrOnly pages = Except.error PdfError.noExtractableContent ↔
      pages ≠ [] ∧
      (ocrOnly = true ∨ ∀ p ∈ pages, p.direct = "") ∧
      ∀ p ∈ pages, p.ocr = OcrOutcome.apiErr := by
  unfold process_pdf
  constructor
  · intro h
    by_cases hdirect : pyStrip (directText ocrOnly pages) = ""
    · rw [if_pos hdirect] at h
      by_cases hp0 : pages = []
      · rw [if_pos hp0] at h
        simp only [Except.error.injEq] at h
        exact PdfError.noConfusion h
      · rw [if_neg hp0] at h
        by_cases hocrb : pyStrip (extract_text_from_pdf_images pages) = ""
        · refine ⟨hp0, ?_, ?_⟩
          · cases hoc : ocrOnly with
            | true => exact Or.inl rfl
            | false =>
                right
                intro p hp
                by_contra hne
                have hfound : (extract_text_from_pdf pages).2 = true := by
                  show pages.any (fun p => p.direct != "") = true
                  exact List.any_eq_true.mpr ⟨p, hp, bne_iff_ne.mpr hne⟩
                have htxt : pyStrip (extract_text_from_pdf pages).1 ≠ "" := by
                  show pyStrip (joinNN (pages.map directPageEntry)) ≠ ""
                  cases pages with
                  | nil => exact absurd hp (List.not_mem_nil p)
                  | cons q ps =>
                      rw [List.map_cons]
                      exact joinNN_strip_ne _ _ (directPageEntry_dash q)
                have hdt : directText ocrOnly pages =
                    (extract_text_from_pdf pages).1 := by
                  rw [hoc]
                  unfold directText
                  rw [if_neg Bool.false_ne_true, if_pos ⟨hfound, htxt⟩]
                rw [hdt] at hdirect
                exact htxt hdirect
          · intro p hp
            rw [← ocrPageEntry_none_iff]
            cases hfm : pages.filterMap ocrPageEntry with
            | nil => exact (List.filterMap_eq_nil_iff.mp hfm) p hp
            | cons e tail =>
                exfalso
                have he : e ∈ pages.filterMap ocrPageEntry := by
                  rw [hfm]; exact List.mem_cons_self e tail
                obtain ⟨q, _, hq⟩ := List.mem_filterMap.mp he
                have : pyStrip (extract_text_from_pdf_images pages) ≠ "" := by
                  show pyStrip (joinNN (pages.filterMap ocrPageEntry)) ≠ ""
                  rw [hfm]
                  exact joinNN_strip_ne _ _ (ocrPageEntry_dash hq)
                exact this hocrb
        · rw [if_neg hocrb] at h
          exact Except.noConfusion h
    · rw [if_neg hdirect] at h
      exact Except.noConfusion h
  · rintro ⟨hpages, hdir, hocr⟩
    have hfm : pages.filterMap ocrPageEntry = [] :=
      List.filterMap_eq_nil_iff.mpr
        (fun p hp => (ocrPageEntry_none_iff p).mpr (hocr p hp))
    have himg : extract_text_from_pdf_images pages = "" := by
      show joinNN (pages.filterMap ocrPageEntry) = ""
      rw [hfm]
      rfl
    have hd : directText ocrOnly pages = "" := by
      cases hoc : ocrOnly with
      | true => rfl
      | false =>
          rcases hdir with h | hall
          · rw [hoc] at h
            exact Bool.noConfusion h
          · have hfound : (extract_text_from_pdf pages).2 = false := by
              show pages.any (fun p => p.direct != "") = false
              refine List.any_eq_false.mpr (fun p hp hb => ?_)
              exact (bne_iff_ne.mp hb) (hall p hp)
            unfold directText
            rw [if_neg Bool.false_ne_true,
              if_neg (fun hcon => Bool.false_ne_true (hfound ▸ hcon.1))]
    rw [hd]
    have hse : pyStrip "" = "" := rfl
    rw [if_pos hse, if_neg hpages, himg, if_pos hse]
